import Mathlib

/-!
Verification development for the Whisper-style decoding controller in
`src/rust/src/file_processor/audio/audio_processor.rs`.

Shallow embedding conventions:
* `f32`/`f64` values that can only be finite in the code paths we model are
  embedded as `ℚ`; values that the code allows to be `NaN` or `-∞`
  (masked logits, `no_speech_prob`, `compression_ratio`) are embedded in the
  type `FP` below.
* The transcendental kernels `exp` (inside `softmax`) and `ln` are supplied by
  the environment as abstract functions `expQ`, `lnQ : ℚ → ℚ`; the structure of
  the softmax (pointwise `exp` followed by normalisation, with `exp(-∞) = 0`)
  is embedded concretely.
* The acoustic model, tokenizer and incremental decoding cache are external
  collaborators; they are embedded as deterministic oracle functions in `Env`
  (a deterministic stateless function of the full token prefix models the
  flush/reuse cache semantics of the source).
* The `StdRng` is embedded as a stream of rational draws together with a
  position counter; `WeightedIndex::sample` is embedded by the inverse-CDF
  search the `rand` crate performs.
-/

namespace AudioProc

/-- Floating-point values as used by the decoder: either NaN, negative
infinity, or a finite value (embedded as a rational). -/
inductive FP where
  | nan : FP
  | ninf : FP
  | fin : ℚ → FP
deriving DecidableEq, Repr

/-- Addition of a finite `f32` logit and a suppression-mask entry
(`0` or `-∞`), as performed by `broadcast_add` on line 216. -/
def FP.addQ : ℚ → FP → FP
  | _, .nan => .nan
  | _, .ninf => .ninf
  | l, .fin m => .fin (l + m)

/-- Division of a masked logit by a positive temperature (`&logits / t`,
line 218; only reached under `t > 0`). -/
def FP.divPos : FP → ℚ → FP
  | .nan, _ => .nan
  | .ninf, _ => .ninf
  | .fin q, t => .fin (q / t)

/-- IEEE `>` comparison of an `FP` value against a finite threshold:
false when the left side is NaN or `-∞`. -/
def fpGtQ : FP → ℚ → Bool
  | .nan, _ => false
  | .ninf, _ => false
  | .fin q, c => decide (c < q)

/-- Three-way comparison of rationals. -/
def qCmp (a b : ℚ) : Ordering :=
  if a < b then .lt else if b < a then .gt else .eq

/-- `f32::total_cmp` restricted to the values that occur in masked logits
(`NaN` produced by the decoder is the positive NaN, greatest in the total
order; `-∞` is below every finite value). -/
def fpCmp : FP → FP → Ordering
  | .ninf, .ninf => .eq
  | .ninf, _ => .lt
  | .fin _, .ninf => .gt
  | .fin a, .fin b => qCmp a b
  | .fin _, .nan => .lt
  | .nan, .nan => .eq
  | .nan, _ => .gt

/-- One step of `Iterator::max_by`: `cmp::max_by` returns the second
argument when the comparison determines the two to be equal, so ties keep
the later element. -/
def maxByStep : Option (Nat × FP) → (Nat × FP) → Option (Nat × FP)
  | none, p => some p
  | some q, p => if fpCmp q.2 p.2 = .gt then some q else some p

/-- The temperature-zero sampler of lines 223-229:
`logits_v.iter().enumerate().max_by(|(_, u), (_, v)| u.total_cmp(v)).map(|(i, _)| i)`. -/
def argmaxTotalCmp (l : List FP) : Option Nat :=
  (l.enum.foldl maxByStep none).map (·.1)

/-! Constants from `candle_transformers::models::whisper` used by the decoder. -/

def N_FRAMES : Nat := 3000
def HOP_LENGTH : Nat := 160
def SAMPLE_RATE : Nat := 16000
def NO_SPEECH_THRESHOLD : ℚ := 6/10
def LOGPROB_THRESHOLD : ℚ := -1
def COMPRESSION_RATIO_THRESHOLD : ℚ := 24/10
def TEMPERATURES : List ℚ := [0, 2/10, 4/10, 6/10, 8/10, 1]
def SOT_TOKEN : String := "<|startoftranscript|>"
def TRANSCRIBE_TOKEN : String := "<|transcribe|>"
def TRANSLATE_TOKEN : String := "<|translate|>"
def EOT_TOKEN : String := "<|endoftext|>"
def NO_TIMESTAMPS_TOKEN : String := "<|notimestamps|>"
def NO_SPEECH_TOKENS : List String := ["<|nocaptions|>", "<|nospeech|>"]

/-- Errors surfaced by the decoder (the source uses `anyhow::Error`; we
distinguish the sources that matter for the control flow). -/
inductive Err where
  | missingToken : String → Err
  | noSpeechTokenUnavailable : Err
  | modelForward : String → Err
  | shapeMismatch : Err
  | indexOutOfBounds : Err
  | invalidWeights : Err
  | emptyLogits : Err
  | tokenizerFailure : String → Err
  | ladderExhausted : Err
deriving DecidableEq, Repr

/-- The static model configuration read at session construction. -/
structure WhisperConfig where
  vocab_size : Nat
  max_target_positions : Nat
  suppress_tokens : List Nat
deriving DecidableEq, Repr

/-- A mel tensor, abstracted to its frame dimension (the decoder only ever
slices along frames and hands slices to the opaque encoder). -/
abbrev MelFrame := List ℚ
abbrev Mel := List MelFrame
abbrev Feat := List ℚ

/-- The collaborators of the decoding controller: configuration, tokenizer,
acoustic model, and the numeric kernels `exp` and `ln`. `forward` returns
the pair (first-position logits, last-position logits) produced by
`decoder_forward` followed by `decoder_final_linear`. -/
structure Env where
  cfg : WhisperConfig
  tokenToId : String → Option Nat
  decodeTok : List Nat → Except Err String
  encode : Mel → Except Err Feat
  forward : List Nat → Feat → Bool → Except Err (List ℚ × List ℚ)
  expQ : ℚ → ℚ
  lnQ : ℚ → ℚ

/-- The seeded pseudo-random generator, embedded as a stream of rational
draws with a position counter. -/
structure Rng where
  stream : Nat → ℚ
  pos : Nat

/-- One uniform draw in `[0, total)` (the `Uniform::sample` inside
`WeightedIndex::sample`); values outside the range model nothing the
generator can produce and are normalised to `0`. -/
def drawUniform (rng : Rng) (total : ℚ) : ℚ × Rng :=
  (if 0 ≤ rng.stream rng.pos ∧ rng.stream rng.pos < total then rng.stream rng.pos else 0,
   ⟨rng.stream, rng.pos + 1⟩)

/-- The inverse-CDF search performed by `WeightedIndex::sample`. -/
def pickWeighted : List ℚ → ℚ → Nat
  | [], _ => 0
  | w :: ws, u => if u < w then 0 else pickWeighted ws (u - w) + 1

inductive Task where
  | transcribe : Task
  | translate : Task
deriving DecidableEq, Repr

/-- The `Decoder` session state (minus the mutable model reference and the
rng, which are threaded explicitly). -/
structure DecoderState where
  task : Option Task
  timestamps : Bool
  verbose : Bool
  suppress_tokens : List FP
  sot_token : Nat
  transcribe_token : Nat
  translate_token : Nat
  eot_token : Nat
  no_speech_token : Nat
  no_timestamps_token : Nat
  language_token : Option Nat
deriving DecidableEq, Repr

/-- `token_id` (lines 356-361). -/
def tokenId (env : Env) (name : String) : Except Err Nat :=
  match env.tokenToId name with
  | none => .error (.missingToken name)
  | some id => .ok id

/-- The suppression mask built in `Decoder::new` (lines 124-134). -/
def buildSuppressMask (env : Env) (timestamps : Bool) (no_ts : Nat) : List FP :=
  (List.range env.cfg.vocab_size).map fun i =>
    if i ∈ env.cfg.suppress_tokens ∨ (timestamps = true ∧ i = no_ts) then FP.ninf else FP.fin 0

/-- `Decoder::new` (lines 113-162); the rng seeding is external to this
state and threaded separately. -/
def Decoder.new (env : Env) (language_token : Option Nat) (task : Option Task)
    (timestamps verbose : Bool) : Except Err DecoderState :=
  match tokenId env NO_TIMESTAMPS_TOKEN with
  | .error e => .error e
  | .ok no_timestamps_token =>
    let suppress := buildSuppressMask env timestamps no_timestamps_token
    match tokenId env SOT_TOKEN with
    | .error e => .error e
    | .ok sot_token =>
      match tokenId env TRANSCRIBE_TOKEN with
      | .error e => .error e
      | .ok transcribe_token =>
        match tokenId env TRANSLATE_TOKEN with
        | .error e => .error e
        | .ok translate_token =>
          match tokenId env EOT_TOKEN with
          | .error e => .error e
          | .ok eot_token =>
            match NO_SPEECH_TOKENS.findSome? env.tokenToId with
            | none => .error .noSpeechTokenUnavailable
            | some no_speech_token =>
              .ok { task := task, timestamps := timestamps, verbose := verbose,
                    suppress_tokens := suppress, sot_token := sot_token,
                    transcribe_token := transcribe_token,
                    translate_token := translate_token, eot_token := eot_token,
                    no_speech_token := no_speech_token,
                    no_timestamps_token := no_timestamps_token,
                    language_token := language_token }

/-- `exp` lifted to masked logits: `exp(-∞) = 0` (the NaN case never occurs
in the decoder; it is mapped to `0`). -/
def expFP (f : ℚ → ℚ) : FP → ℚ
  | .ninf => 0
  | .fin q => f q
  | .nan => 0

/-- Softmax over a (possibly masked) logits vector with abstract `exp`. -/
def softmaxFP (f : ℚ → ℚ) (l : List FP) : List ℚ :=
  (l.map (expFP f)).map fun e => e / (l.map (expFP f)).sum

/-- Softmax over a plain (unmasked) logits vector. -/
def softmaxQ (f : ℚ → ℚ) (l : List ℚ) : List ℚ :=
  softmaxFP f (l.map FP.fin)

/-- The sampler (lines 217-230): weighted draw from the temperature-scaled
softmax when `t > 0` (with the `WeightedIndex::new` validity checks),
`max_by(total_cmp)` argmax otherwise. -/
def sampleStep (env : Env) (t : ℚ) (masked : List FP) (rng : Rng) :
    Except Err Nat × Rng :=
  if 0 < t then
    let prs := softmaxFP env.expQ (masked.map fun x => x.divPos t)
    if prs.any fun w => decide (w < 0) then (.error .invalidWeights, rng)
    else if prs.sum = 0 then (.error .invalidWeights, rng)
    else
      let p := drawUniform rng prs.sum
      (.ok (pickWeighted prs p.1), p.2)
  else
    match argmaxTotalCmp masked with
    | none => (.error .emptyLogits, rng)
    | some i => (.ok i, rng)

/-- The task token pushed during priming (lines 177-180). -/
def taskToken (dec : DecoderState) : Nat :=
  match dec.task with
  | none => dec.transcribe_token
  | some .transcribe => dec.transcribe_token
  | some .translate => dec.translate_token

/-- The priming tokens of lines 173-183: start-of-transcript, optional
language token, task token, and the no-timestamps token when timestamp
mode is off. -/
def primingTokens (dec : DecoderState) : List Nat :=
  [dec.sot_token] ++
    (match dec.language_token with
     | some l => [l]
     | none => []) ++
    [taskToken dec] ++
    (if dec.timestamps then [] else [dec.no_timestamps_token])

/-- Ghost record of one loop iteration: the sampled token, its probability
under the softmax of the unscaled masked logits, and whether the `break`
on line 238 fired at this iteration. -/
structure Step where
  token : Nat
  prob : ℚ
  brk : Bool
deriving DecidableEq, Repr

/-- Result of the autoregressive loop: the accumulated token sequence, the
running log-probability sum, the no-speech probability, and the ghost list
of per-iteration records. -/
structure CoreOut where
  tokens : List Nat
  sum_logprob : ℚ
  no_speech_prob : FP
  steps : List Step
deriving DecidableEq, Repr

/-- The rng-free part of one loop iteration (lines 185-216): run the model
forward on the current prefix (`is_first_step = (i == 0)`), read the
no-speech probability at iteration 0 from the first-position logits, and
mask the last-position logits with the suppression mask (`broadcast_add`,
shape-checked). Returns the masked logits and the no-speech probability. -/
def preSample (env : Env) (dec : DecoderState) (feat : Feat) (i : Nat)
    (tokens : List Nat) (ns : FP) : Except Err (List FP × FP) :=
  match env.forward tokens feat (i == 0) with
  | .error e => .error e
  | .ok fl =>
    match (if i == 0 then
             match (softmaxQ env.expQ fl.1).get? dec.no_speech_token with
             | none => Except.error Err.indexOutOfBounds
             | some p => Except.ok (FP.fin p)
           else Except.ok ns) with
    | .error e => .error e
    | .ok ns =>
      if fl.2.length = dec.suppress_tokens.length then
        .ok (List.zipWith FP.addQ fl.2 dec.suppress_tokens, ns)
      else .error .shapeMismatch

/-- One iteration body of the autoregressive loop (lines 185-234): the
rng-free model work of `preSample`, then sampling the next token, then the
lookup of its probability under the softmax of the unscaled masked logits.
Returns (next token, its probability, no-speech probability). -/
def stepOnce (env : Env) (dec : DecoderState) (t : ℚ) (feat : Feat) (i : Nat)
    (tokens : List Nat) (ns : FP) (rng : Rng) : Except Err (Nat × ℚ × FP) × Rng :=
  match preSample env dec feat i tokens ns with
  | .error e => (.error e, rng)
  | .ok mns =>
    match sampleStep env t mns.1 rng with
    | (.error e, rng) => (.error e, rng)
    | (.ok next, rng) =>
      match (softmaxFP env.expQ mns.1).get? next with
      | none => (.error .indexOutOfBounds, rng)
      | some prob => (.ok (next, prob, mns.2), rng)

/-- The autoregressive loop of lines 184-241. `steps` in the output is a
ghost trace (assembled on the way out of the recursion) recording each
sampled token; all other components follow the source exactly: after each
iteration body the sampled token is appended and the loop breaks on
end-of-transcript or an over-long sequence before accumulating that
token's log-probability. -/
def decodeLoop (env : Env) (dec : DecoderState) (t : ℚ) (feat : Feat) :
    Nat → Nat → List Nat → ℚ → FP → Rng → Except Err CoreOut × Rng
  | 0, _, tokens, sum, ns, rng => (.ok ⟨tokens, sum, ns, []⟩, rng)
  | fuel + 1, i, tokens, sum, ns, rng =>
    match stepOnce env dec t feat i tokens ns rng with
    | (.error e, rng) => (.error e, rng)
    | (.ok (next, prob, ns), rng) =>
      if next = dec.eot_token ∨
          env.cfg.max_target_positions < (tokens ++ [next]).length then
        (.ok ⟨tokens ++ [next], sum, ns, [⟨next, prob, true⟩]⟩, rng)
      else
        match decodeLoop env dec t feat fuel (i + 1) (tokens ++ [next])
            (sum + env.lnQ prob) ns rng with
        | (.error e, rng) => (.error e, rng)
        | (.ok out, rng) =>
          (.ok ⟨out.tokens, out.sum_logprob, out.no_speech_prob,
                ⟨next, prob, false⟩ :: out.steps⟩, rng)

/-- `Decoder::decode` up to (but not including) the final text decode and
averaging: encode the mel chunk once, then run the loop for
`max_target_positions / 2` iterations starting from the priming tokens. -/
def decodeCore (env : Env) (dec : DecoderState) (rng : Rng) (mel : Mel) (t : ℚ) :
    Except Err CoreOut × Rng :=
  match env.encode mel with
  | .error e => (.error e, rng)
  | .ok feat =>
    decodeLoop env dec t feat (env.cfg.max_target_positions / 2) 0
      (primingTokens dec) 0 .nan rng

/-- `DecodingResult` (lines 73-81). -/
structure DecodingResult where
  tokens : List Nat
  text : String
  avg_logprob : ℚ
  no_speech_prob : FP
  temperature : ℚ
  compression_ratio : FP
deriving DecidableEq, Repr

/-- `Decoder::decode` (lines 164-253). -/
def decode (env : Env) (dec : DecoderState) (rng : Rng) (mel : Mel) (t : ℚ) :
    Except Err DecodingResult × Rng :=
  match decodeCore env dec rng mel t with
  | (.error e, rng) => (.error e, rng)
  | (.ok out, rng) =>
    match env.decodeTok out.tokens with
    | .error e => (.error e, rng)
    | .ok text =>
      (.ok { tokens := out.tokens, text := text,
             avg_logprob := out.sum_logprob / (out.tokens.length : ℚ),
             no_speech_prob := out.no_speech_prob, temperature := t,
             compression_ratio := .nan }, rng)

/-- The fallback trigger of lines 264-265. -/
def needsFallback (dr : DecodingResult) : Bool :=
  fpGtQ dr.compression_ratio COMPRESSION_RATIO_THRESHOLD ||
    decide (dr.avg_logprob < LOGPROB_THRESHOLD)

/-- The early-acceptance condition of line 266. -/
def acceptEarly (dr : DecodingResult) : Bool :=
  !needsFallback dr || fpGtQ dr.no_speech_prob NO_SPEECH_THRESHOLD

/-- The temperature ladder loop of `Decoder::decode_with_fallback`
(lines 255-276), generic in the remaining ladder: the last temperature's
result is returned unconditionally; earlier errors are logged and the
ladder continues; earlier successes are returned when accepted. -/
def fallbackAux (env : Env) (dec : DecoderState) (mel : Mel) :
    List ℚ → Rng → Except Err DecodingResult × Rng
  | [], rng => (.error .ladderExhausted, rng)
  | [t], rng => decode env dec rng mel t
  | t :: t' :: ts, rng =>
    match decode env dec rng mel t with
    | (.ok dr, rng) =>
      if acceptEarly dr then (.ok dr, rng)
      else fallbackAux env dec mel (t' :: ts) rng
    | (.error _, rng) => fallbackAux env dec mel (t' :: ts) rng

/-- `Decoder::decode_with_fallback`. -/
def decodeWithFallback (env : Env) (dec : DecoderState) (mel : Mel) (rng : Rng) :
    Except Err DecodingResult × Rng :=
  fallbackAux env dec mel TEMPERATURES rng

/-- `Segment` (lines 84-89). -/
structure Segment where
  start : ℚ
  duration : ℚ
  dr : DecodingResult
deriving DecidableEq, Repr

/-- The timestamp-token scan of lines 305-327, returning the emitted
`(prev_timestamp, this_timestamp, text)` triples instead of printing them,
plus the pending buffer and previous timestamp at end of scan. -/
def tsLoop (env : Env) (dec : DecoderState) :
    List Nat → List Nat → ℚ → List (ℚ × Option ℚ × String) →
    Except Err (List (ℚ × Option ℚ × String) × List Nat × ℚ)
  | [], buf, prev, acc => .ok (acc, buf, prev)
  | tok :: rest, buf, prev, acc =>
    if tok = dec.sot_token ∨ tok = dec.eot_token then tsLoop env dec rest buf prev acc
    else if dec.no_timestamps_token < tok then
      if buf.isEmpty then
        tsLoop env dec rest buf (((tok - dec.no_timestamps_token + 1 : Nat) : ℚ) / 50) acc
      else
        match env.decodeTok buf with
        | .error e => .error e
        | .ok text =>
          tsLoop env dec rest [] (((tok - dec.no_timestamps_token + 1 : Nat) : ℚ) / 50)
            (acc ++ [(prev, some (((tok - dec.no_timestamps_token + 1 : Nat) : ℚ) / 50), text)])
    else tsLoop env dec rest (buf ++ [tok]) prev acc

/-- The full timestamp parser of lines 305-338, including the final
open-ended triple emitted only when its decoded text is non-empty. -/
def timestampTriples (env : Env) (dec : DecoderState) (tokens : List Nat) :
    Except Err (List (ℚ × Option ℚ × String)) :=
  match tsLoop env dec tokens [] 0 [] with
  | .error e => .error e
  | .ok (acc, buf, prev) =>
    if buf.isEmpty then .ok acc
    else
      match env.decodeTok buf with
      | .error e => .error e
      | .ok text => .ok (if text = "" then acc else acc ++ [(prev, none, text)])

/-- The mel slice `mel.narrow(2, seek, size)`. -/
def windowOf (mel : Mel) (seek size : Nat) : Mel :=
  (mel.drop seek).take size

/-- `time_offset` of line 284. -/
def timeOffsetOf (seek : Nat) : ℚ :=
  ((seek * HOP_LENGTH : Nat) : ℚ) / (SAMPLE_RATE : ℚ)

/-- `segment_duration` of line 287. -/
def durationOf (size : Nat) : ℚ :=
  ((size * HOP_LENGTH : Nat) : ℚ) / (SAMPLE_RATE : ℚ)

/-- The no-speech skip policy of line 290. -/
def skipWindow (dr : DecodingResult) : Bool :=
  fpGtQ dr.no_speech_prob NO_SPEECH_THRESHOLD && decide (dr.avg_logprob < LOGPROB_THRESHOLD)

/-- Ghost record of one processed window: its cursor position, its size and
the decoding result the fallback controller returned for it. -/
structure WinInfo where
  seek : Nat
  size : Nat
  dr : DecodingResult
deriving DecidableEq, Repr

/-- The timestamp-printing pass a kept window runs when timestamp mode is
on (lines 299-338): only its tokenizer failures are observable in the
returned value. -/
def parseCheck (env : Env) (dec : DecoderState) (dr : DecodingResult) : Except Err Unit :=
  if dec.timestamps then
    match timestampTriples env dec dr.tokens with
    | .error e => .error e
    | .ok _ => .ok ()
  else .ok ()

/-- The seek loop of `Decoder::run` (lines 278-353), with a fuel argument
(each iteration advances the cursor by at least one frame, so fuel
`mel.length` is always sufficient). Returns the kept segments together
with the ghost list of all processed windows. Timestamp mode additionally
runs the timestamp parser on each kept window's tokens, whose tokenizer
failures propagate exactly as in the source. -/
def runAux (env : Env) (dec : DecoderState) (mel : Mel) :
    Nat → Nat → Rng → Except Err (List Segment × List WinInfo) × Rng
  | 0, _, rng => (.ok ([], []), rng)
  | fuel + 1, seek, rng =>
    if seek < mel.length then
      match decodeWithFallback env dec
          (windowOf mel seek (min (mel.length - seek) N_FRAMES)) rng with
      | (.error e, rng) => (.error e, rng)
      | (.ok dr, rng) =>
        if skipWindow dr then
          match runAux env dec mel fuel (seek + min (mel.length - seek) N_FRAMES) rng with
          | (.error e, rng) => (.error e, rng)
          | (.ok sw, rng) =>
            (.ok (sw.1, ⟨seek, min (mel.length - seek) N_FRAMES, dr⟩ :: sw.2), rng)
        else
          match parseCheck env dec dr with
          | .error e => (.error e, rng)
          | .ok _ =>
            match runAux env dec mel fuel (seek + min (mel.length - seek) N_FRAMES) rng with
            | (.error e, rng) => (.error e, rng)
            | (.ok sw, rng) =>
              (.ok (⟨timeOffsetOf seek, durationOf (min (mel.length - seek) N_FRAMES), dr⟩ :: sw.1,
                    ⟨seek, min (mel.length - seek) N_FRAMES, dr⟩ :: sw.2), rng)
    else (.ok ([], []), rng)

/-- `Decoder::run` with the ghost window trace. -/
def runWithTrace (env : Env) (dec : DecoderState) (rng : Rng) (mel : Mel) :
    Except Err (List Segment × List WinInfo) × Rng :=
  runAux env dec mel mel.length 0 rng

/-- `Decoder::run` (lines 278-353). -/
def Decoder.run (env : Env) (dec : DecoderState) (rng : Rng) (mel : Mel) :
    Except Err (List Segment) × Rng :=
  match runWithTrace env dec rng mel with
  | (.error e, rng) => (.error e, rng)
  | (.ok sw, rng) => (.ok sw.1, rng)

/-- Sum of the accumulated log-probabilities over a ghost trace: exactly
the sampled tokens whose iteration did not break out of the loop. -/
def stepsSum (lnQ : ℚ → ℚ) (steps : List Step) : ℚ :=
  ((steps.filter fun s => !s.brk).map fun s => lnQ s.prob).sum

/-- Modelled from the spec: the §4.3 sampler at temperature zero, "ties
broken by lowest index (first maximum encountered)" — keep the earlier
element of a tie. -/
def specArgmaxLowest (l : List FP) : Option Nat :=
  (l.enum.foldl
    (fun acc p =>
      match acc with
      | none => some p
      | some q => if fpCmp p.2 q.2 = .gt then some p else some q)
    none).map (·.1)

/-- Modelled from the spec: "`avg_logprob` is the sum of per-token
log-probabilities of chosen tokens divided by token count", the
probabilities being those of every chosen token. -/
def specAvgLogprob (lnQ : ℚ → ℚ) (chosenProbs : List ℚ) (count : Nat) : ℚ :=
  ((chosenProbs.map lnQ).sum) / (count : ℚ)

/-- The (cursor, window size) pairs the seek loop processes over
`cf` content frames. -/
def windowPlanAux (cf : Nat) : Nat → Nat → List (Nat × Nat)
  | 0, _ => []
  | fuel + 1, seek =>
    if seek < cf then
      (seek, min (cf - seek) N_FRAMES) :: windowPlanAux cf fuel (seek + min (cf - seek) N_FRAMES)
    else []

/-- The full window plan over `cf` content frames, starting at cursor 0. -/
def windowPlan (cf : Nat) : List (Nat × Nat) := windowPlanAux cf cf 0

/-- A segment's non-special tokens: everything except start-of-transcript,
end-of-transcript and timestamp markers (ids above the no-timestamps id). -/
def nonSpecialTokens (dec : DecoderState) (tokens : List Nat) : List Nat :=
  tokens.filter fun tok =>
    !(decide (tok = dec.sot_token)) && !(decide (tok = dec.eot_token)) &&
      decide (tok ≤ dec.no_timestamps_token)

/-- Concatenation, in order, of the texts of emitted timestamp triples. -/
def tripleTexts (trs : List (ℚ × Option ℚ × String)) : String :=
  trs.foldr (fun tr acc => tr.2.2 ++ acc) ""

/-- Decidable equality on `Except`, needed to evaluate the embedding on
concrete inputs. -/
instance {ε α : Type} [DecidableEq ε] [DecidableEq α] : DecidableEq (Except ε α) := fun a b =>
  match a, b with
  | .error e, .error f =>
    if h : e = f then .isTrue (by rw [h]) else .isFalse (by intro hc; cases hc; exact h rfl)
  | .ok x, .ok y =>
    if h : x = y then .isTrue (by rw [h]) else .isFalse (by intro hc; cases hc; exact h rfl)
  | .error _, .ok _ => .isFalse (by intro hc; cases hc)
  | .ok _, .error _ => .isFalse (by intro hc; cases hc)

/-! ### A concrete deterministic collaborator environment (used by witnesses) -/

/-- A concrete tokenizer id assignment for the six special token names. -/
def wTokId : String → Option Nat := fun s =>
  if s = SOT_TOKEN then some 0
  else if s = TRANSCRIBE_TOKEN then some 1
  else if s = TRANSLATE_TOKEN then some 2
  else if s = EOT_TOKEN then some 3
  else if s = "<|nocaptions|>" then some 4
  else if s = NO_TIMESTAMPS_TOKEN then some 5
  else none

/-- A concrete deterministic environment: vocabulary of six ids, suppressed
id 2, a model whose last-position logits always peak at the end-of-text id,
constant numeric kernels. -/
def wEnv : Env :=
  { cfg := ⟨6, 8, [2]⟩, tokenToId := wTokId, decodeTok := fun _ => .ok "",
    encode := fun _ => .ok [], forward := fun _ _ _ => .ok ([0, 0, 0, 0, 0, 0], [0, 0, 0, 9, 0, 0]),
    expQ := fun _ => 1, lnQ := fun _ => -7 }

/-- The decoder session `Decoder.new` builds over `wEnv`. -/
def wDec : DecoderState :=
  ⟨some .transcribe, false, false, [.fin 0, .fin 0, .ninf, .fin 0, .fin 0, .fin 0],
   0, 1, 2, 3, 4, 5, none⟩

/-- A concrete rng: the all-zero stream. -/
def wRng : Rng := ⟨fun _ => 0, 0⟩

/-- A second concrete rng with a different stream and position. -/
def wRng2 : Rng := ⟨fun _ => 1, 7⟩

/-- The decoding result `wEnv` produces at temperature 0. -/
def wDr : DecodingResult := ⟨[0, 1, 5, 3], "", 0, .fin (1/6), 0, .nan⟩

/-- The loop output `wEnv` produces at temperature 0. -/
def wOut : CoreOut := ⟨[0, 1, 5, 3], 0, .fin (1/6), [⟨3, 1/5, true⟩]⟩

/-- A variant of `wEnv` whose configuration suppresses every vocabulary
id. -/
def wEnvAll : Env := { wEnv with cfg := ⟨6, 8, [0, 1, 2, 3, 4, 5]⟩ }

/-- The decoder session `Decoder.new` builds over `wEnvAll`: the
suppression mask is `-∞` at every vocabulary id. -/
def wDecAll : DecoderState :=
  ⟨some .transcribe, false, false, [.ninf, .ninf, .ninf, .ninf, .ninf, .ninf],
   0, 1, 2, 3, 4, 5, none⟩

/-- The loop output `wEnvAll` produces at temperature 0: with every masked
logit `-∞`, `max_by(total_cmp)` ties everywhere and returns the last
index 5 — a suppressed id — at each of the four iterations (its softmax
probability is `0/0 = 0`, and no iteration breaks since 5 is not the
end-of-transcript id and the sequence stays within the length bound). -/
def wOutAll : CoreOut :=
  ⟨[0, 1, 5, 5, 5, 5, 5], -28, .fin (1/6),
   [⟨5, 0, false⟩, ⟨5, 0, false⟩, ⟨5, 0, false⟩, ⟨5, 0, false⟩]⟩

/-- A variant of `wEnv` whose encoder always fails. -/
def wEnvErr : Env := { wEnv with encode := fun _ => .error (.modelForward "x") }


/-! ### Helper lemmas about the autoregressive loop -/

/-- Characterisation of a successful loop run in terms of its ghost trace:
the final token sequence is the starting sequence followed by the sampled
tokens, the log-probability sum accumulates exactly the non-breaking
iterations, only the final iteration can break, a breaking iteration's
token is end-of-transcript or overflows the length bound, and the trace is
bounded by the fuel. -/
theorem decodeLoop_spec (env : Env) (dec : DecoderState) (t : ℚ) (feat : Feat) :
    ∀ fuel i tokens₀ sum₀ ns rng out rng₂,
      decodeLoop env dec t feat fuel i tokens₀ sum₀ ns rng = (.ok out, rng₂) →
      out.tokens = tokens₀ ++ out.steps.map (fun s => s.token) ∧
      out.sum_logprob = sum₀ + stepsSum env.lnQ out.steps ∧
      (∀ k s, k + 1 < out.steps.length → out.steps.get? k = some s → s.brk = false) ∧
      (∀ s ∈ out.steps, s.brk = true →
        (s.token = dec.eot_token ∨ env.cfg.max_target_positions < out.tokens.length)) ∧
      out.steps.length ≤ fuel := by
  intro fuel
  induction fuel with
  | zero =>
    intro i tokens₀ sum₀ ns rng out rng₂ h
    simp only [decodeLoop, Prod.mk.injEq] at h
    obtain ⟨h1, _⟩ := h
    cases h1
    simp [stepsSum]
  | succ fuel ih =>
    intro i tokens₀ sum₀ ns rng out rng₂ h
    rw [decodeLoop] at h
    rcases hs : stepOnce env dec t feat i tokens₀ ns rng with ⟨r, rng₁⟩
    rw [hs] at h
    cases r with
    | error e => simp at h
    | ok np =>
      obtain ⟨next, prob, ns₁⟩ := np
      dsimp only at h
      by_cases hb : next = dec.eot_token ∨
          env.cfg.max_target_positions < (tokens₀ ++ [next]).length
      · rw [if_pos hb] at h
        simp only [Prod.mk.injEq, Except.ok.injEq] at h
        obtain ⟨h1, _⟩ := h
        cases h1
        refine ⟨by simp, by simp [stepsSum], ?_, ?_, by simp⟩
        · intro k s hk
          simp at hk
        · intro s hsmem _
          simp only [List.mem_singleton] at hsmem
          cases hsmem
          simpa using hb
      · rw [if_neg hb] at h
        rcases hrec : decodeLoop env dec t feat fuel (i + 1) (tokens₀ ++ [next])
            (sum₀ + env.lnQ prob) ns₁ rng₁ with ⟨rr, rng₃⟩
        rw [hrec] at h
        cases rr with
        | error e => simp at h
        | ok out₁ =>
          simp only [Prod.mk.injEq, Except.ok.injEq] at h
          obtain ⟨h1, _⟩ := h
          cases h1
          obtain ⟨ht, hsum, honly, hbrk, hlen⟩ :=
            ih (i + 1) (tokens₀ ++ [next]) (sum₀ + env.lnQ prob) ns₁ rng₁ out₁ rng₃ hrec
          refine ⟨?_, ?_, ?_, ?_, ?_⟩
          · simpa [List.append_assoc] using ht
          · simp only [stepsSum, List.filter_cons, Bool.not_false, if_pos]
            simp only [stepsSum] at hsum
            simp [hsum, add_assoc]
          · intro k s hk hget
            cases k with
            | zero => simp at hget; cases hget; rfl
            | succ k =>
              simp only [List.length_cons, add_lt_add_iff_right] at hk
              simp only [List.get?_cons_succ] at hget
              exact honly k s (by omega) hget
          · intro s hsmem hsbrk
            rcases List.mem_cons.mp hsmem with h0 | h1
            · cases h0; simp at hsbrk
            · exact hbrk s h1 hsbrk
          · simp only [List.length_cons]
            omega

/-- `qCmp` returns `gt` exactly when the second argument is smaller. -/
theorem qCmp_eq_gt {a b : ℚ} : qCmp a b = .gt ↔ b < a := by
  unfold qCmp
  split_ifs with h1 h2
  · exact iff_of_false (by decide) (by linarith)
  · exact iff_of_true rfl h2
  · exact iff_of_false (by decide) h2

/-- `fpCmp` is reflexive up to `eq`. -/
theorem fpCmp_self (x : FP) : fpCmp x x = .eq := by
  cases x with
  | fin a => simp [fpCmp, qCmp, lt_irrefl]
  | nan => rfl
  | ninf => rfl

/-- The non-strict order induced by `fpCmp` is transitive. -/
theorem fpCmp_le_trans : ∀ {a b c : FP},
    fpCmp a b ≠ .gt → fpCmp b c ≠ .gt → fpCmp a c ≠ .gt := by
  intro a b c h1 h2
  cases a <;> cases b <;> cases c <;>
    simp [fpCmp, qCmp_eq_gt, not_lt] at * <;> linarith

/-- The strict order induced by `fpCmp` is asymmetric. -/
theorem fpCmp_gt_asymm : ∀ {a b : FP}, fpCmp a b = .gt → fpCmp b a ≠ .gt := by
  intro a b h
  cases a <;> cases b <;>
    simp [fpCmp, qCmp_eq_gt, not_lt] at * <;> linarith

/-- Characterisation of the `max_by` fold over an enumerated suffix: the
fold of `maxByStep` never returns `none`, its result is the accumulator or
an element of the suffix, it is an upper bound of the accumulator and of
every element, it is strictly above every element with a larger index
(ties keep the later element, so the result index is the last maximal
one), and a result index below the suffix indices must be the accumulator. -/
theorem foldEnum_char (l : List FP) : ∀ (n : Nat) (a : Nat × FP),
    ∃ r, (List.enumFrom n l).foldl maxByStep (some a) = some r ∧
      (r = a ∨ ∃ j, ∃ hj : j < l.length, r = (n + j, l.get ⟨j, hj⟩)) ∧
      fpCmp a.2 r.2 ≠ .gt ∧
      (∀ j, ∀ hj : j < l.length, fpCmp (l.get ⟨j, hj⟩) r.2 ≠ .gt) ∧
      (∀ j, ∀ hj : j < l.length, r.1 < n + j → fpCmp r.2 (l.get ⟨j, hj⟩) = .gt) ∧
      (r.1 < n → r = a) := by
  induction l with
  | nil =>
    intro n a
    refine ⟨a, rfl, Or.inl rfl, by simp [fpCmp_self], ?_, ?_, fun _ => rfl⟩
    · intro j hj; exact absurd hj (by simp)
    · intro j hj; exact absurd hj (by simp)
  | cons x xs ih =>
    intro n a
    rw [List.enumFrom, List.foldl_cons]
    by_cases hax : fpCmp a.2 x = .gt
    · have hstep : maxByStep (some a) (n, x) = some a := by simp [maxByStep, hax]
      rw [hstep]
      obtain ⟨r, hfold, hmem, hle, hall, hstrict, hsanity⟩ := ih (n + 1) a
      have hxr : fpCmp x r.2 ≠ .gt := fpCmp_le_trans (fpCmp_gt_asymm hax) hle
      refine ⟨r, hfold, ?_, hle, ?_, ?_, ?_⟩
      · rcases hmem with h | ⟨j, hj, hr⟩
        · exact Or.inl h
        · exact Or.inr ⟨j + 1, by simpa using Nat.succ_lt_succ hj,
            by simpa [Nat.add_assoc, Nat.add_comm 1 j] using hr⟩
      · intro j hj
        cases j with
        | zero => simpa using hxr
        | succ j => simpa using hall j (by simpa using hj)
      · intro j hj hr
        cases j with
        | zero =>
          have hra : r = a := hsanity (by omega)
          subst hra
          simpa using hax
        | succ j =>
          have := hstrict j (by simpa using hj) (by omega)
          simpa using this
      · intro hr
        exact hsanity (by omega)
    · have hstep : maxByStep (some a) (n, x) = some (n, x) := by simp [maxByStep, hax]
      rw [hstep]
      obtain ⟨r, hfold, hmem, hle, hall, hstrict, hsanity⟩ := ih (n + 1) (n, x)
      have har : fpCmp a.2 r.2 ≠ .gt := fpCmp_le_trans hax hle
      refine ⟨r, hfold, ?_, har, ?_, ?_, ?_⟩
      · rcases hmem with h | ⟨j, hj, hr⟩
        · exact Or.inr ⟨0, by simp, by simpa using h⟩
        · exact Or.inr ⟨j + 1, by simpa using Nat.succ_lt_succ hj,
            by simpa [Nat.add_assoc, Nat.add_comm 1 j] using hr⟩
      · intro j hj
        cases j with
        | zero => simpa using hle
        | succ j => simpa using hall j (by simpa using hj)
      · intro j hj hr
        cases j with
        | zero =>
          exfalso
          have hra : r = (n, x) := hsanity (by omega)
          rw [hra] at hr
          simp at hr
        | succ j =>
          have := hstrict j (by simpa using hj) (by omega)
          simpa using this
      · intro hr
        exfalso
        have hra : r = (n, x) := hsanity (by omega)
        rw [hra] at hr
        simp at hr

/-- Characterisation of the temperature-zero sampler: on a non-empty
logits vector it returns the index of a maximal entry, and every entry at
a strictly larger index is strictly below it — i.e. ties are broken by the
highest index (the last maximum encountered). -/
theorem argmax_char (l : List FP) (hl : l ≠ []) :
    ∃ i, ∃ hi : i < l.length, argmaxTotalCmp l = some i ∧
      (∀ j, ∀ hj : j < l.length, fpCmp (l.get ⟨j, hj⟩) (l.get ⟨i, hi⟩) ≠ .gt) ∧
      (∀ j, ∀ hj : j < l.length, i < j → fpCmp (l.get ⟨i, hi⟩) (l.get ⟨j, hj⟩) = .gt) := by
  cases l with
  | nil => exact absurd rfl hl
  | cons x xs =>
    obtain ⟨r, hfold, hmem, hle, hall, hstrict, _⟩ := foldEnum_char xs 1 (0, x)
    have henum : (x :: xs).enum = (0, x) :: List.enumFrom 1 xs := rfl
    have hfold2 : ((x :: xs).enum.foldl maxByStep none) = some r := by
      rw [henum, List.foldl_cons]
      simpa [maxByStep] using hfold
    have hval : ∃ hi : r.1 < (x :: xs).length, r.2 = (x :: xs).get ⟨r.1, hi⟩ := by
      rcases hmem with h | ⟨j, hj, hr⟩
      · subst h; exact ⟨by simp, rfl⟩
      · rw [hr]
        refine ⟨by simp only [List.length_cons]; omega, ?_⟩
        simp [Nat.add_comm 1 j]
    obtain ⟨hi, hv⟩ := hval
    refine ⟨r.1, hi, by simp [argmaxTotalCmp, hfold2], ?_, ?_⟩
    · intro j hj
      rw [← hv]
      cases j with
      | zero => simpa using hle
      | succ j => simpa using hall j (by simpa using hj)
    · intro j hj hij
      rw [← hv]
      cases j with
      | zero => omega
      | succ j =>
        have := hstrict j (by simpa using hj) (by omega)
        simpa using this

/-- The sampler at temperature zero never touches the rng. -/
theorem sampleStep_zero (env : Env) (masked : List FP) (rng : Rng) :
    sampleStep env 0 masked rng =
      ((match argmaxTotalCmp masked with
        | none => Except.error Err.emptyLogits
        | some i => Except.ok i), rng) := by
  rw [sampleStep, if_neg (lt_irrefl 0)]
  cases argmaxTotalCmp masked <;> rfl

/-- The loop body at temperature zero is rng-independent and leaves the
rng unchanged. -/
theorem stepOnce_zero (env : Env) (dec : DecoderState) (feat : Feat) (i : Nat)
    (tokens : List Nat) (ns : FP) (rng rng' : Rng) :
    (stepOnce env dec 0 feat i tokens ns rng).1 =
      (stepOnce env dec 0 feat i tokens ns rng').1 ∧
    (stepOnce env dec 0 feat i tokens ns rng).2 = rng := by
  unfold stepOnce
  cases hp : preSample env dec feat i tokens ns with
  | error e => simp
  | ok mns =>
    dsimp only
    rw [sampleStep_zero env mns.1 rng, sampleStep_zero env mns.1 rng']
    cases argmaxTotalCmp mns.1 with
    | none => simp
    | some j =>
      dsimp only
      cases (softmaxFP env.expQ mns.1).get? j <;> simp

/-- The autoregressive loop at temperature zero is rng-independent and
leaves the rng unchanged. -/
theorem decodeLoop_zero (env : Env) (dec : DecoderState) (feat : Feat) :
    ∀ fuel i tokens sum ns rng rng',
      (decodeLoop env dec 0 feat fuel i tokens sum ns rng).1 =
        (decodeLoop env dec 0 feat fuel i tokens sum ns rng').1 ∧
      (decodeLoop env dec 0 feat fuel i tokens sum ns rng).2 = rng := by
  intro fuel
  induction fuel with
  | zero => intro i tokens sum ns rng rng'; exact ⟨rfl, rfl⟩
  | succ fuel ih =>
    intro i tokens sum ns rng rng'
    obtain ⟨h1, h2⟩ := stepOnce_zero env dec feat i tokens ns rng rng'
    obtain ⟨_, h3⟩ := stepOnce_zero env dec feat i tokens ns rng' rng
    have e1 : stepOnce env dec 0 feat i tokens ns rng =
        ((stepOnce env dec 0 feat i tokens ns rng').1, rng) := Prod.ext h1 h2
    have e2 : stepOnce env dec 0 feat i tokens ns rng' =
        ((stepOnce env dec 0 feat i tokens ns rng').1, rng') := Prod.ext rfl h3
    rw [decodeLoop, decodeLoop, e1, e2]
    cases (stepOnce env dec 0 feat i tokens ns rng').1 with
    | error e => simp
    | ok np =>
      obtain ⟨next, prob, ns₁⟩ := np
      dsimp only
      simp only [List.length_append, List.length_singleton]
      by_cases hb : next = dec.eot_token ∨
          env.cfg.max_target_positions < tokens.length + 1
      · rw [if_pos hb, if_pos hb]
        exact ⟨rfl, rfl⟩
      · simp only [if_neg hb]
        obtain ⟨ih1, ih2⟩ := ih (i + 1) (tokens ++ [next]) (sum + env.lnQ prob) ns₁ rng rng'
        obtain ⟨_, ih3⟩ := ih (i + 1) (tokens ++ [next]) (sum + env.lnQ prob) ns₁ rng' rng
        have e3 : decodeLoop env dec 0 feat fuel (i + 1) (tokens ++ [next])
            (sum + env.lnQ prob) ns₁ rng =
            ((decodeLoop env dec 0 feat fuel (i + 1) (tokens ++ [next])
              (sum + env.lnQ prob) ns₁ rng').1, rng) := Prod.ext ih1 ih2
        have e4 : decodeLoop env dec 0 feat fuel (i + 1) (tokens ++ [next])
            (sum + env.lnQ prob) ns₁ rng' =
            ((decodeLoop env dec 0 feat fuel (i + 1) (tokens ++ [next])
              (sum + env.lnQ prob) ns₁ rng').1, rng') := Prod.ext rfl ih3
        rw [e3, e4]
        cases (decodeLoop env dec 0 feat fuel (i + 1) (tokens ++ [next])
            (sum + env.lnQ prob) ns₁ rng').1 <;> simp

/-- The full decode at temperature zero is rng-independent and leaves the
rng unchanged. -/
theorem decode_zero (env : Env) (dec : DecoderState) (mel : Mel) (rng rng' : Rng) :
    (decode env dec rng mel 0).1 = (decode env dec rng' mel 0).1 ∧
    (decode env dec rng mel 0).2 = rng := by
  rw [decode, decode, decodeCore, decodeCore]
  cases env.encode mel with
  | error e => simp
  | ok feat =>
    dsimp only
    obtain ⟨h1, h2⟩ := decodeLoop_zero env dec feat
      (env.cfg.max_target_positions / 2) 0 (primingTokens dec) 0 .nan rng rng'
    obtain ⟨_, h3⟩ := decodeLoop_zero env dec feat
      (env.cfg.max_target_positions / 2) 0 (primingTokens dec) 0 .nan rng' rng
    have e1 : decodeLoop env dec 0 feat (env.cfg.max_target_positions / 2) 0
        (primingTokens dec) 0 .nan rng =
        ((decodeLoop env dec 0 feat (env.cfg.max_target_positions / 2) 0
          (primingTokens dec) 0 .nan rng').1, rng) := Prod.ext h1 h2
    have e2 : decodeLoop env dec 0 feat (env.cfg.max_target_positions / 2) 0
        (primingTokens dec) 0 .nan rng' =
        ((decodeLoop env dec 0 feat (env.cfg.max_target_positions / 2) 0
          (primingTokens dec) 0 .nan rng').1, rng') := Prod.ext rfl h3
    rw [e1, e2]
    cases (decodeLoop env dec 0 feat (env.cfg.max_target_positions / 2) 0
        (primingTokens dec) 0 .nan rng').1 with
    | error e => simp
    | ok out =>
      dsimp only
      cases hd : env.decodeTok out.tokens <;> simp [hd]

/-- A successful `decode` factors through a successful `decodeCore` and a
successful tokenizer decode, with the result fields as on lines 243-252. -/
theorem decode_ok (env : Env) (dec : DecoderState) (rng : Rng) (mel : Mel) (t : ℚ)
    (dr : DecodingResult) (rng₂ : Rng)
    (h : decode env dec rng mel t = (.ok dr, rng₂)) :
    ∃ out text, decodeCore env dec rng mel t = (.ok out, rng₂) ∧
      env.decodeTok out.tokens = .ok text ∧
      dr = ⟨out.tokens, text, out.sum_logprob / (out.tokens.length : ℚ),
            out.no_speech_prob, t, .nan⟩ := by
  rw [decode] at h
  rcases hc : decodeCore env dec rng mel t with ⟨r, rng₁⟩
  rw [hc] at h
  cases r with
  | error e => simp at h
  | ok out =>
    dsimp only at h
    cases hd : env.decodeTok out.tokens with
    | error e => rw [hd] at h; simp at h
    | ok text =>
      rw [hd] at h
      simp only [Prod.mk.injEq, Except.ok.injEq] at h
      obtain ⟨h1, h2⟩ := h
      exact ⟨out, text, by rw [h2], hd, h1.symm⟩

/-- A successful `decodeCore` factors through a successful encode and the
loop started from the priming tokens with fuel `max_target_positions / 2`. -/
theorem decodeCore_ok (env : Env) (dec : DecoderState) (rng : Rng) (mel : Mel) (t : ℚ)
    (out : CoreOut) (rng₂ : Rng)
    (h : decodeCore env dec rng mel t = (.ok out, rng₂)) :
    ∃ feat, env.encode mel = .ok feat ∧
      decodeLoop env dec t feat (env.cfg.max_target_positions / 2) 0
        (primingTokens dec) 0 .nan rng = (.ok out, rng₂) := by
  rw [decodeCore] at h
  cases he : env.encode mel with
  | error e => rw [he] at h; simp at h
  | ok feat => rw [he] at h; exact ⟨feat, rfl, h⟩

/-- The priming sequence has between two and four tokens. -/
theorem primingTokens_length_le (dec : DecoderState) : (primingTokens dec).length ≤ 4 := by
  rcases hl : dec.language_token with _ | l <;> rcases hts : dec.timestamps <;>
    simp [primingTokens, hts, hl]

/-- Characterisation of a successful seek loop in terms of its ghost
window trace: the processed (cursor, size) pairs are exactly the window
plan, and the kept segments are exactly the non-skipped windows' segments
in order. -/
theorem runAux_trace (env : Env) (dec : DecoderState) (mel : Mel) :
    ∀ fuel seek rng segs wins rng₂,
      runAux env dec mel fuel seek rng = (.ok (segs, wins), rng₂) →
      (wins.map fun w => (w.seek, w.size)) = windowPlanAux mel.length fuel seek ∧
      segs = wins.filterMap fun w =>
        if skipWindow w.dr then none
        else some ⟨timeOffsetOf w.seek, durationOf w.size, w.dr⟩ := by
  intro fuel
  induction fuel with
  | zero =>
    intro seek rng segs wins rng₂ h
    simp only [runAux, Prod.mk.injEq, Except.ok.injEq] at h
    obtain ⟨⟨h1, h2⟩, _⟩ := h
    subst h1 h2
    simp [windowPlanAux]
  | succ fuel ih =>
    intro seek rng segs wins rng₂ h
    rw [runAux] at h
    by_cases hseek : seek < mel.length
    · rw [if_pos hseek] at h
      rcases hdwf : decodeWithFallback env dec
          (windowOf mel seek (min (mel.length - seek) N_FRAMES)) rng with ⟨r, rng₁⟩
      rw [hdwf] at h
      cases r with
      | error e => simp at h
      | ok dr =>
        dsimp only at h
        by_cases hskip : skipWindow dr = true
        · rw [if_pos hskip] at h
          rcases hrec : runAux env dec mel fuel
              (seek + min (mel.length - seek) N_FRAMES) rng₁ with ⟨rr, rng₃⟩
          rw [hrec] at h
          cases rr with
          | error e => simp at h
          | ok sw =>
            obtain ⟨segs₁, wins₁⟩ := sw
            simp only [Prod.mk.injEq, Except.ok.injEq] at h
            obtain ⟨⟨h1, h2⟩, _⟩ := h
            subst h1 h2
            obtain ⟨hplan, hfil⟩ := ih (seek + min (mel.length - seek) N_FRAMES)
              rng₁ segs₁ wins₁ rng₃ hrec
            constructor
            · rw [windowPlanAux, if_pos hseek]
              simp [hplan]
            · simp [hfil, hskip]
        · rw [if_neg hskip] at h
          cases hpc : parseCheck env dec dr with
          | error e => rw [hpc] at h; simp at h
          | ok u =>
            rw [hpc] at h
            dsimp only at h
            rcases hrec : runAux env dec mel fuel
                (seek + min (mel.length - seek) N_FRAMES) rng₁ with ⟨rr, rng₃⟩
            rw [hrec] at h
            cases rr with
            | error e => simp at h
            | ok sw =>
              obtain ⟨segs₁, wins₁⟩ := sw
              simp only [Prod.mk.injEq, Except.ok.injEq] at h
              obtain ⟨⟨h1, h2⟩, _⟩ := h
              subst h1 h2
              obtain ⟨hplan, hfil⟩ := ih (seek + min (mel.length - seek) N_FRAMES)
                rng₁ segs₁ wins₁ rng₃ hrec
              constructor
              · rw [windowPlanAux, if_pos hseek]
                simp [hplan]
              · simp [hfil, hskip]
    · rw [if_neg hseek] at h
      simp only [Prod.mk.injEq, Except.ok.injEq] at h
      obtain ⟨⟨h1, h2⟩, _⟩ := h
      subst h1 h2
      simp [windowPlanAux, hseek]

/-- Every planned window sits inside the content frames and has size
`min(remaining, N_FRAMES)`. -/
theorem windowPlanAux_mem (cf : Nat) : ∀ fuel seek p, p ∈ windowPlanAux cf fuel seek →
    p.2 = min (cf - p.1) N_FRAMES ∧ p.1 < cf := by
  intro fuel
  induction fuel with
  | zero => intro seek p hp; simp [windowPlanAux] at hp
  | succ fuel ih =>
    intro seek p hp
    rw [windowPlanAux] at hp
    by_cases hseek : seek < cf
    · rw [if_pos hseek] at hp
      rcases List.mem_cons.mp hp with h | h
      · subst h; exact ⟨rfl, hseek⟩
      · exact ih _ p h
    · rw [if_neg hseek] at hp
      simp at hp

/-- The first planned window (if any) starts at the given cursor. -/
theorem windowPlanAux_head (cf : Nat) : ∀ fuel seek q,
    (windowPlanAux cf fuel seek).get? 0 = some q → q.1 = seek := by
  intro fuel
  induction fuel with
  | zero => intro seek q hq; simp [windowPlanAux] at hq
  | succ fuel ih =>
    intro seek q hq
    rw [windowPlanAux] at hq
    by_cases hseek : seek < cf
    · rw [if_pos hseek] at hq
      simp at hq
      rw [← hq]
    · rw [if_neg hseek] at hq
      simp at hq

/-- Consecutive planned windows advance the cursor by exactly the earlier
window's size. -/
theorem windowPlanAux_adjacent (cf : Nat) : ∀ fuel seek k p q,
    (windowPlanAux cf fuel seek).get? k = some p →
    (windowPlanAux cf fuel seek).get? (k + 1) = some q →
    q.1 = p.1 + p.2 := by
  intro fuel
  induction fuel with
  | zero => intro seek k p q hp hq; simp [windowPlanAux] at hp
  | succ fuel ih =>
    intro seek k p q hp hq
    rw [windowPlanAux] at hp hq
    by_cases hseek : seek < cf
    · rw [if_pos hseek] at hp hq
      cases k with
      | zero =>
        simp only [List.get?_cons_zero, Option.some.injEq] at hp
        simp only [List.get?_cons_succ] at hq
        have := windowPlanAux_head cf fuel (seek + min (cf - seek) N_FRAMES) q hq
        rw [this, ← hp]
      | succ k =>
        simp only [List.get?_cons_succ] at hp hq
        exact ih _ k p q hp hq
    · rw [if_neg hseek] at hp
      simp at hp

/-- `softmaxFP` preserves length. -/
theorem softmaxFP_length (f : ℚ → ℚ) (l : List FP) : (softmaxFP f l).length = l.length := by
  simp [softmaxFP]

/-- Pointwise description of `softmaxFP`. -/
theorem softmaxFP_get? (f : ℚ → ℚ) (l : List FP) (i : Nat) (v : FP)
    (h : l.get? i = some v) :
    (softmaxFP f l).get? i = some (expFP f v / (l.map (expFP f)).sum) := by
  rw [softmaxFP, List.get?_map, List.get?_map, h]
  rfl

/-- `WeightedIndex::sample` never picks a zero-weight index: with the draw
inside `[0, total)` and all weights non-negative, the chosen index carries
a strictly positive weight. -/
theorem pickWeighted_pos : ∀ (ws : List ℚ) (u : ℚ), 0 ≤ u → u < ws.sum →
    (∀ w ∈ ws, 0 ≤ w) →
    ∃ w, ws.get? (pickWeighted ws u) = some w ∧ 0 < w := by
  intro ws
  induction ws with
  | nil => intro u h0 hs _; simp at hs; linarith
  | cons w ws ih =>
    intro u h0 hs hnn
    rw [pickWeighted]
    by_cases hu : u < w
    · rw [if_pos hu]
      exact ⟨w, rfl, by linarith⟩
    · rw [if_neg hu]
      have hw : w ≤ u := le_of_not_lt hu
      have h0' : 0 ≤ u - w := by linarith
      have hs' : u - w < ws.sum := by
        rw [List.sum_cons] at hs; linarith
      obtain ⟨v, hv, hvpos⟩ := ih (u - w) h0' hs' (fun x hx => hnn x (List.mem_cons_of_mem w hx))
      exact ⟨v, by simpa using hv, hvpos⟩

/-- Pointwise description of the `broadcast_add` masking. -/
theorem zipWith_addQ_get? : ∀ (a : List ℚ) (b : List FP) (i : Nat) (x : ℚ) (y : FP),
    a.get? i = some x → b.get? i = some y →
    (List.zipWith FP.addQ a b).get? i = some (FP.addQ x y) := by
  intro a
  induction a with
  | nil => intro b i x y hx; simp at hx
  | cons a as ih =>
    intro b i x y hx hy
    cases b with
    | nil => simp at hy
    | cons b bs =>
      cases i with
      | zero =>
        simp only [List.get?_cons_zero, Option.some.injEq] at hx hy
        subst hx hy
        rfl
      | succ i =>
        simp only [List.get?_cons_succ] at hx hy
        simpa using ih bs i x y hx hy

/-- A successfully sampled token is a valid index whose masked logit is not
`-∞`, provided some masked logit is not `-∞`. -/
theorem sampleStep_ok_not_ninf (env : Env) (t : ℚ) (masked : List FP) (rng : Rng)
    (next : Nat) (rng₂ : Rng)
    (hfree : ∃ j v, masked.get? j = some v ∧ v ≠ FP.ninf)
    (h : sampleStep env t masked rng = (.ok next, rng₂)) :
    ∃ v, masked.get? next = some v ∧ v ≠ FP.ninf := by
  rw [sampleStep] at h
  by_cases ht : 0 < t
  · rw [if_pos ht] at h
    dsimp only at h
    by_cases hneg : ((softmaxFP env.expQ (masked.map fun x => x.divPos t)).any
        fun w => decide (w < 0)) = true
    · rw [if_pos hneg] at h; simp at h
    · rw [if_neg hneg] at h
      by_cases hzero : (softmaxFP env.expQ (masked.map fun x => x.divPos t)).sum = 0
      · rw [if_pos hzero] at h; simp at h
      · rw [if_neg hzero] at h
        simp only [Prod.mk.injEq, Except.ok.injEq] at h
        obtain ⟨hnext, _⟩ := h
        have hnn : ∀ w ∈ softmaxFP env.expQ (masked.map fun x => x.divPos t), 0 ≤ w := by
          intro w hw
          by_contra hlt
          exact hneg (List.any_eq_true.mpr ⟨w, hw, by simp; linarith⟩)
        have hsumpos : 0 < (softmaxFP env.expQ (masked.map fun x => x.divPos t)).sum := by
          rcases lt_or_eq_of_le (List.sum_nonneg hnn) with hlt | heq
          · exact hlt
          · exact absurd heq.symm hzero
        have hdraw : 0 ≤ (drawUniform rng (softmaxFP env.expQ
              (masked.map fun x => x.divPos t)).sum).1 ∧
            (drawUniform rng (softmaxFP env.expQ (masked.map fun x => x.divPos t)).sum).1 <
              (softmaxFP env.expQ (masked.map fun x => x.divPos t)).sum := by
          rw [drawUniform]
          by_cases hcond : 0 ≤ rng.stream rng.pos ∧ rng.stream rng.pos <
              (softmaxFP env.expQ (masked.map fun x => x.divPos t)).sum
          · simpa [if_pos hcond] using hcond
          · simp [if_neg hcond, hsumpos]
        obtain ⟨w, hw, hwpos⟩ := pickWeighted_pos _ _ hdraw.1 hdraw.2 hnn
        rw [hnext] at hw
        have hnextlt : next < masked.length := by
          have := (List.get?_eq_some.mp hw).1
          rw [softmaxFP_length, List.length_map] at this
          exact this
        refine ⟨masked.get ⟨next, hnextlt⟩, List.get?_eq_get hnextlt, ?_⟩
        intro hninf
        have hm : (masked.map fun x => x.divPos t).get? next = some (FP.ninf.divPos t) := by
          rw [List.get?_map, List.get?_eq_get hnextlt, hninf]; rfl
        have hp := softmaxFP_get? env.expQ (masked.map fun x => x.divPos t) next
          (FP.ninf.divPos t) hm
        rw [hw] at hp
        simp only [Option.some.injEq] at hp
        rw [hp] at hwpos
        simp [FP.divPos, expFP] at hwpos
  · rw [if_neg ht] at h
    cases ha : argmaxTotalCmp masked with
    | none => rw [ha] at h; simp at h
    | some i =>
      rw [ha] at h
      simp only [Prod.mk.injEq, Except.ok.injEq] at h
      obtain ⟨hi, _⟩ := h
      subst hi
      obtain ⟨j, v, hj, hvn⟩ := hfree
      have hne : masked ≠ [] := by
        intro hnil
        rw [hnil] at hj
        simp at hj
      obtain ⟨i₂, hi₂, hsome, hmax, _⟩ := argmax_char masked hne
      rw [ha] at hsome
      simp only [Option.some.injEq] at hsome
      subst hsome
      refine ⟨masked.get ⟨i, hi₂⟩, List.get?_eq_get hi₂, ?_⟩
      intro hninf
      have hjlt : j < masked.length := (List.get?_eq_some.mp hj).1
      have hjv : masked.get ⟨j, hjlt⟩ = v := by
        have h2 := List.get?_eq_get (l := masked) hjlt
        rw [hj] at h2
        simp only [Option.some.injEq] at h2
        exact h2.symm
      have hcmp := hmax j hjlt
      rw [hninf, hjv] at hcmp
      rcases v with _ | _ | q
      · exact hcmp rfl
      · exact hvn rfl
      · exact hcmp rfl

/-- A successful `preSample` factors through a successful forward pass and
the shape-checked masking of the last-position logits. -/
theorem preSample_ok (env : Env) (dec : DecoderState) (feat : Feat) (i : Nat)
    (tokens : List Nat) (ns : FP) (mns : List FP × FP)
    (h : preSample env dec feat i tokens ns = .ok mns) :
    ∃ fl, env.forward tokens feat (i == 0) = .ok fl ∧
      fl.2.length = dec.suppress_tokens.length ∧
      mns.1 = List.zipWith FP.addQ fl.2 dec.suppress_tokens := by
  rw [preSample] at h
  split at h
  · simp at h
  · rename_i fl hf
    split at h
    · simp at h
    · split at h
      · rename_i hsh
        simp only [Except.ok.injEq] at h
        subst h
        exact ⟨fl, hf, hsh, rfl⟩
      · simp at h

/-- The suppression mask built by `Decoder::new` has one entry per
vocabulary id: `-∞` exactly for configured suppressed ids plus the
no-timestamps id when timestamp mode is on, `0` otherwise. -/
theorem new_mask (env : Env) (lang : Option Nat) (task : Option Task) (ts vb : Bool)
    (dec : DecoderState) (h : Decoder.new env lang task ts vb = .ok dec) :
    dec.suppress_tokens.length = env.cfg.vocab_size ∧
    ∀ k, k < env.cfg.vocab_size →
      dec.suppress_tokens.get? k =
        some (if k ∈ env.cfg.suppress_tokens ∨ (ts = true ∧ k = dec.no_timestamps_token)
              then FP.ninf else FP.fin 0) := by
  rw [Decoder.new] at h
  split at h
  · simp at h
  · rename_i no_ts h1
    split at h
    · simp at h
    · split at h
      · simp at h
      · split at h
        · simp at h
        · split at h
          · simp at h
          · split at h
            · simp at h
            · simp only [Except.ok.injEq] at h
              subst h
              refine ⟨by simp [buildSuppressMask], ?_⟩
              intro k hk
              simp [buildSuppressMask, List.get?_map, List.get?_range, hk]

/-- No iteration of the autoregressive loop samples a configured
suppressed id, provided the suppression mask has the built shape, marks
every in-vocabulary suppressed id with `-∞`, and leaves at least one id
unmasked. -/
theorem decodeLoop_not_suppressed (env : Env) (dec : DecoderState) (t : ℚ) (feat : Feat)
    (hlen : dec.suppress_tokens.length = env.cfg.vocab_size)
    (hmask : ∀ id ∈ env.cfg.suppress_tokens, id < env.cfg.vocab_size →
      dec.suppress_tokens.get? id = some FP.ninf)
    (hfree : ∃ j, j < env.cfg.vocab_size ∧ dec.suppress_tokens.get? j = some (FP.fin 0)) :
    ∀ fuel i tokens sum ns rng out rng₂,
      decodeLoop env dec t feat fuel i tokens sum ns rng = (.ok out, rng₂) →
      ∀ s ∈ out.steps, ∀ id ∈ env.cfg.suppress_tokens, s.token ≠ id := by
  intro fuel
  induction fuel with
  | zero =>
    intro i tokens sum ns rng out rng₂ h
    simp only [decodeLoop, Prod.mk.injEq, Except.ok.injEq] at h
    obtain ⟨h1, _⟩ := h
    cases h1
    simp
  | succ fuel ih =>
    intro i tokens sum ns rng out rng₂ h
    rw [decodeLoop] at h
    rcases hs : stepOnce env dec t feat i tokens ns rng with ⟨r, rng₁⟩
    rw [hs] at h
    cases r with
    | error e => simp at h
    | ok np =>
      obtain ⟨next, prob, ns₁⟩ := np
      have hnext : ∀ id ∈ env.cfg.suppress_tokens, next ≠ id := by
        rw [stepOnce] at hs
        cases hp : preSample env dec feat i tokens ns with
        | error e => rw [hp] at hs; simp at hs
        | ok mns =>
          rw [hp] at hs
          dsimp only at hs
          rcases hss : sampleStep env t mns.1 rng with ⟨sr, rngS⟩
          rw [hss] at hs
          cases sr with
          | error e => simp at hs
          | ok nx =>
            dsimp only at hs
            cases hgp : (softmaxFP env.expQ mns.1).get? nx with
            | none => rw [hgp] at hs; simp at hs
            | some pr =>
              rw [hgp] at hs
              simp only [Prod.mk.injEq, Except.ok.injEq, Prod.mk.injEq] at hs
              obtain ⟨⟨hnx, _⟩, _⟩ := hs
              subst hnx
              obtain ⟨fl, hf, hsh, hm⟩ := preSample_ok env dec feat i tokens ns mns hp
              have hmlen : mns.1.length = env.cfg.vocab_size := by
                rw [hm, List.length_zipWith, hsh, hlen, Nat.min_self]
              obtain ⟨j, hjlt, hjmask⟩ := hfree
              have hjfl : j < fl.2.length := by omega
              have hjm : mns.1.get? j = some (FP.addQ (fl.2.get ⟨j, hjfl⟩) (FP.fin 0)) := by
                rw [hm]
                exact zipWith_addQ_get? fl.2 dec.suppress_tokens j _ _
                  (List.get?_eq_get hjfl) hjmask
              obtain ⟨v, hv, hvn⟩ := sampleStep_ok_not_ninf env t mns.1 rng nx rngS
                ⟨j, FP.addQ (fl.2.get ⟨j, hjfl⟩) (FP.fin 0), hjm, by simp [FP.addQ]⟩ hss
              intro id hid
              by_cases hidlt : id < env.cfg.vocab_size
              · intro heq
                subst heq
                have hidfl : nx < fl.2.length := by omega
                have hidm : mns.1.get? nx = some (FP.addQ (fl.2.get ⟨nx, hidfl⟩) FP.ninf) := by
                  rw [hm]
                  exact zipWith_addQ_get? fl.2 dec.suppress_tokens nx _ _
                    (List.get?_eq_get hidfl) (hmask nx hid hidlt)
                rw [hv] at hidm
                simp only [Option.some.injEq] at hidm
                rw [hidm] at hvn
                simp [FP.addQ] at hvn
              · intro heq
                have hnxlt : nx < mns.1.length := (List.get?_eq_some.mp hv).1
                omega
      dsimp only at h
      by_cases hb : next = dec.eot_token ∨
          env.cfg.max_target_positions < (tokens ++ [next]).length
      · rw [if_pos hb] at h
        simp only [Prod.mk.injEq, Except.ok.injEq] at h
        obtain ⟨h1, _⟩ := h
        cases h1
        intro s hsmem id hid
        simp only [List.mem_singleton] at hsmem
        subst hsmem
        exact hnext id hid
      · rw [if_neg hb] at h
        rcases hrec : decodeLoop env dec t feat fuel (i + 1) (tokens ++ [next])
            (sum + env.lnQ prob) ns₁ rng₁ with ⟨rr, rng₃⟩
        rw [hrec] at h
        cases rr with
        | error e => simp at h
        | ok out₁ =>
          simp only [Prod.mk.injEq, Except.ok.injEq] at h
          obtain ⟨h1, _⟩ := h
          cases h1
          intro s hsmem id hid
          rcases List.mem_cons.mp hsmem with h0 | h1
          · subst h0; exact hnext id hid
          · exact ih (i + 1) (tokens ++ [next]) (sum + env.lnQ prob) ns₁ rng₁ out₁ rng₃
              hrec s h1 id hid

/-- A string of length zero is empty. -/
theorem string_length_zero (s : String) (h : s.length = 0) : s = "" := by
  cases s with
  | mk data =>
    cases data with
    | nil => rfl
    | cons c cs => simp [String.length] at h

/-- A concatenation homomorphism maps the empty token list to the empty
string. -/
theorem hom_nil (g : List Nat → String) (hg : ∀ a b, g (a ++ b) = g a ++ g b) :
    g [] = "" := by
  have h := hg [] []
  simp only [List.append_nil] at h
  have hl : (g []).length = (g []).length + (g []).length := by
    conv_lhs => rw [h]
    rw [String.length_append]
  exact string_length_zero _ (by omega)

/-- `tripleTexts` distributes over appending one triple. -/
theorem tripleTexts_append_single (trs : List (ℚ × Option ℚ × String))
    (x : ℚ × Option ℚ × String) :
    tripleTexts (trs ++ [x]) = tripleTexts trs ++ x.2.2 := by
  induction trs with
  | nil => simp [tripleTexts]
  | cons a l ih =>
    simp only [tripleTexts, List.foldr_cons, List.cons_append] at *
    rw [ih, String.append_assoc]

/-- Invariant of the timestamp scan: the texts emitted so far plus the
pending buffer always decode to the non-special tokens processed so far
(when the tokenizer is a concatenation homomorphism). -/
theorem tsLoop_texts (env : Env) (dec : DecoderState) (g : List Nat → String)
    (hdec : ∀ ts, env.decodeTok ts = .ok (g ts))
    (hg : ∀ a b, g (a ++ b) = g a ++ g b) :
    ∀ rest buf prev acc acc₁ buf₁ prev₁,
      tsLoop env dec rest buf prev acc = .ok (acc₁, buf₁, prev₁) →
      tripleTexts acc₁ ++ g buf₁ =
        tripleTexts acc ++ (g buf ++ g (nonSpecialTokens dec rest)) := by
  intro rest
  induction rest with
  | nil =>
    intro buf prev acc acc₁ buf₁ prev₁ h
    simp only [tsLoop, Except.ok.injEq, Prod.mk.injEq] at h
    obtain ⟨h1, h2, _⟩ := h
    subst h1 h2
    simp [nonSpecialTokens, hom_nil g hg]
  | cons tok rest ih =>
    intro buf prev acc acc₁ buf₁ prev₁ h
    rw [tsLoop] at h
    by_cases hsp : tok = dec.sot_token ∨ tok = dec.eot_token
    · rw [if_pos hsp] at h
      have hrec := ih buf prev acc acc₁ buf₁ prev₁ h
      rw [hrec]
      have hdrop : nonSpecialTokens dec (tok :: rest) = nonSpecialTokens dec rest := by
        rcases hsp with h0 | h0 <;> simp [nonSpecialTokens, List.filter_cons, h0]
      rw [hdrop]
    · rw [if_neg hsp] at h
      push_neg at hsp
      obtain ⟨hsot, heot⟩ := hsp
      by_cases hts : dec.no_timestamps_token < tok
      · rw [if_pos hts] at h
        have hdrop : nonSpecialTokens dec (tok :: rest) = nonSpecialTokens dec rest := by
          simp [nonSpecialTokens, List.filter_cons, Nat.not_le.mpr hts]
        by_cases hbe : buf.isEmpty = true
        · rw [if_pos hbe] at h
          have hbuf : buf = [] := List.isEmpty_iff.mp hbe
          have hrec := ih buf (((tok - dec.no_timestamps_token + 1 : Nat) : ℚ) / 50)
            acc acc₁ buf₁ prev₁ h
          rw [hrec, hdrop]
        · rw [if_neg hbe] at h
          rw [hdec buf] at h
          dsimp only at h
          have hrec := ih [] (((tok - dec.no_timestamps_token + 1 : Nat) : ℚ) / 50)
            (acc ++ [(prev, some (((tok - dec.no_timestamps_token + 1 : Nat) : ℚ) / 50),
              g buf)]) acc₁ buf₁ prev₁ h
          rw [hrec, hdrop, tripleTexts_append_single, hom_nil g hg]
          simp [String.append_assoc]
      · rw [if_neg hts] at h
        have hkeep : nonSpecialTokens dec (tok :: rest) = tok :: nonSpecialTokens dec rest := by
          simp [nonSpecialTokens, List.filter_cons, hsot, heot, Nat.not_lt.mp hts]
        have hrec := ih (buf ++ [tok]) prev acc acc₁ buf₁ prev₁ h
        rw [hrec, hkeep, hg buf [tok]]
        have hcons : g (tok :: nonSpecialTokens dec rest) =
            g [tok] ++ g (nonSpecialTokens dec rest) := by
          have := hg [tok] (nonSpecialTokens dec rest)
          simpa using this
        rw [hcons]
        simp [String.append_assoc]

/-! ### Claim theorems -/

/-- C4: every `DecodingResult` a decode attempt returns carries
`compression_ratio = NaN`; hence the fallback trigger's comparison of
`compression_ratio` against `COMPRESSION_RATIO_THRESHOLD` is never true,
`needsFallback` reduces to the `avg_logprob` test alone, and a successful
non-final attempt is accepted exactly when `avg_logprob` is not below
`LOGPROB_THRESHOLD` or `no_speech_prob` exceeds `NO_SPEECH_THRESHOLD`. -/
theorem claim_C4 (env : Env) (dec : DecoderState) (rng : Rng) (mel : Mel) (t : ℚ)
    (dr : DecodingResult) (rng₂ : Rng)
    (h : decode env dec rng mel t = (.ok dr, rng₂)) :
    dr.compression_ratio = FP.nan ∧
    fpGtQ dr.compression_ratio COMPRESSION_RATIO_THRESHOLD = false ∧
    needsFallback dr = decide (dr.avg_logprob < LOGPROB_THRESHOLD) ∧
    acceptEarly dr =
      (!decide (dr.avg_logprob < LOGPROB_THRESHOLD) ||
        fpGtQ dr.no_speech_prob NO_SPEECH_THRESHOLD) := by
  obtain ⟨out, text, _, _, hdr⟩ := decode_ok env dec rng mel t dr rng₂ h
  subst hdr
  refine ⟨rfl, rfl, ?_, ?_⟩ <;> simp [needsFallback, acceptEarly, fpGtQ]

/-- C4 witness: a concrete successful decode attempt. -/
theorem claim_C4_witness :
    wDr.compression_ratio = FP.nan ∧
    fpGtQ wDr.compression_ratio COMPRESSION_RATIO_THRESHOLD = false ∧
    needsFallback wDr = decide (wDr.avg_logprob < LOGPROB_THRESHOLD) ∧
    acceptEarly wDr =
      (!decide (wDr.avg_logprob < LOGPROB_THRESHOLD) ||
        fpGtQ wDr.no_speech_prob NO_SPEECH_THRESHOLD) :=
  claim_C4 wEnv wDec wRng [] 0 wDr wRng (by
    norm_num +decide [decode, decodeCore, decodeLoop, stepOnce, preSample, sampleStep, softmaxFP,
      softmaxQ, expFP, argmaxTotalCmp, maxByStep, qCmp, fpCmp, primingTokens, taskToken,
      wEnv, wDec, wRng, wDr, FP.addQ, FP.divPos, List.zipWith, List.enum, List.enumFrom,
      List.foldl, List.get?])

/-- C5: the seek loop starts at cursor 0, processes windows of size
`min(remaining, N_FRAMES)`, advances the cursor by exactly the window size
after every window regardless of its skip/keep outcome, and an empty mel
tensor yields an empty segment list (for every environment, so without
invoking the model). -/
theorem claim_C5 :
    (∀ env dec rng mel segs wins rng₂,
      runWithTrace env dec rng mel = (.ok (segs, wins), rng₂) →
      (wins.map fun w => (w.seek, w.size)) = windowPlan mel.length ∧
      (∀ w ∈ wins, w.size = min (mel.length - w.seek) N_FRAMES ∧ w.seek < mel.length) ∧
      (∀ k p q, wins.get? k = some p → wins.get? (k + 1) = some q →
        q.seek = p.seek + p.size) ∧
      (∀ p, wins.get? 0 = some p → p.seek = 0)) ∧
    (∀ env dec rng, Decoder.run env dec rng ([] : Mel) = (.ok [], rng)) := by
  constructor
  · intro env dec rng mel segs wins rng₂ h
    obtain ⟨hplan, _⟩ := runAux_trace env dec mel mel.length 0 rng segs wins rng₂ h
    refine ⟨by rw [windowPlan]; exact hplan, ?_, ?_, ?_⟩
    · intro w hw
      have : (w.seek, w.size) ∈ windowPlanAux mel.length mel.length 0 := by
        rw [← hplan]; exact List.mem_map_of_mem _ hw
      exact windowPlanAux_mem mel.length mel.length 0 (w.seek, w.size) this
    · intro k p q hp hq
      have hp2 : (windowPlanAux mel.length mel.length 0).get? k = some (p.seek, p.size) := by
        rw [← hplan, List.get?_map, hp]; rfl
      have hq2 : (windowPlanAux mel.length mel.length 0).get? (k + 1) = some (q.seek, q.size) := by
        rw [← hplan, List.get?_map, hq]; rfl
      exact windowPlanAux_adjacent mel.length mel.length 0 k (p.seek, p.size)
        (q.seek, q.size) hp2 hq2
    · intro p hp
      have hp2 : (windowPlanAux mel.length mel.length 0).get? 0 = some (p.seek, p.size) := by
        rw [← hplan, List.get?_map, hp]; rfl
      exact windowPlanAux_head mel.length mel.length 0 (p.seek, p.size) hp2
  · intro env dec rng; rfl

/-- C5 witness: the concrete two-frame run. -/
theorem claim_C5_witness :
    (([⟨0, 2, wDr⟩] : List WinInfo).map fun w => (w.seek, w.size)) = windowPlan 2 ∧
    (∀ w ∈ ([⟨0, 2, wDr⟩] : List WinInfo),
      w.size = min (2 - w.seek) N_FRAMES ∧ w.seek < 2) ∧
    (∀ k p q, ([⟨0, 2, wDr⟩] : List WinInfo).get? k = some p →
      ([⟨0, 2, wDr⟩] : List WinInfo).get? (k + 1) = some q →
      q.seek = p.seek + p.size) ∧
    (∀ p, ([⟨0, 2, wDr⟩] : List WinInfo).get? 0 = some p → p.seek = 0) :=
  claim_C5.1 wEnv wDec wRng [[1], [1]] [⟨0, 1/50, wDr⟩] [⟨0, 2, wDr⟩] wRng (by
    norm_num +decide [runWithTrace, runAux, parseCheck, windowOf, timeOffsetOf, durationOf,
      skipWindow, N_FRAMES, HOP_LENGTH, SAMPLE_RATE, decodeWithFallback, fallbackAux,
      TEMPERATURES, acceptEarly, needsFallback, fpGtQ, LOGPROB_THRESHOLD,
      COMPRESSION_RATIO_THRESHOLD, NO_SPEECH_THRESHOLD, decode, decodeCore, decodeLoop,
      stepOnce, preSample, sampleStep, softmaxFP, softmaxQ, expFP, argmaxTotalCmp, maxByStep,
      qCmp, fpCmp, primingTokens, taskToken, wEnv, wDec, wRng, wDr, FP.addQ, FP.divPos,
      List.zipWith, List.enum, List.enumFrom, List.foldl, List.get?])

/-- C6: a processed window's result is discarded (no `Segment` appended)
exactly when `no_speech_prob` exceeds the no-speech threshold AND
`avg_logprob` is below the log-probability threshold; otherwise a
`Segment` with that window's time offset, duration and result is appended,
in order. -/
theorem claim_C6 :
    (∀ env dec rng mel segs wins rng₂,
      runWithTrace env dec rng mel = (.ok (segs, wins), rng₂) →
      segs = wins.filterMap fun w =>
        if skipWindow w.dr then none
        else some ⟨timeOffsetOf w.seek, durationOf w.size, w.dr⟩) ∧
    (∀ dr, skipWindow dr = true ↔
      (fpGtQ dr.no_speech_prob NO_SPEECH_THRESHOLD = true ∧
        dr.avg_logprob < LOGPROB_THRESHOLD)) := by
  constructor
  · intro env dec rng mel segs wins rng₂ h
    exact (runAux_trace env dec mel mel.length 0 rng segs wins rng₂ h).2
  · intro dr
    simp [skipWindow]

/-- C6 witness: the concrete two-frame run keeps its single
(non-skipped) window. -/
theorem claim_C6_witness :
    ([⟨0, 1/50, wDr⟩] : List Segment) =
      ([⟨0, 2, wDr⟩] : List WinInfo).filterMap fun w =>
        if skipWindow w.dr then none
        else some ⟨timeOffsetOf w.seek, durationOf w.size, w.dr⟩ :=
  (claim_C6.1 wEnv wDec wRng [[1], [1]] [⟨0, 1/50, wDr⟩] [⟨0, 2, wDr⟩] wRng (by
    norm_num +decide [runWithTrace, runAux, parseCheck, windowOf, timeOffsetOf, durationOf,
      skipWindow, N_FRAMES, HOP_LENGTH, SAMPLE_RATE, decodeWithFallback, fallbackAux,
      TEMPERATURES, acceptEarly, needsFallback, fpGtQ, LOGPROB_THRESHOLD,
      COMPRESSION_RATIO_THRESHOLD, NO_SPEECH_THRESHOLD, decode, decodeCore, decodeLoop,
      stepOnce, preSample, sampleStep, softmaxFP, softmaxQ, expFP, argmaxTotalCmp, maxByStep,
      qCmp, fpCmp, primingTokens, taskToken, wEnv, wDec, wRng, wDr, FP.addQ, FP.divPos,
      List.zipWith, List.enum, List.enumFrom, List.foldl, List.get?]))

/-- C7: when the tokenizer decode is a concatenation homomorphism (the
tokenizer collaborator is deterministic and total, and decoding a
concatenation of buffers is the concatenation of their decodes),
concatenating in order the texts of all triples the Timestamp Parser emits
equals decoding the segment's full non-special token sequence directly. -/
theorem claim_C7 (env : Env) (dec : DecoderState) (g : List Nat → String)
    (hdec : ∀ ts, env.decodeTok ts = .ok (g ts))
    (hg : ∀ a b, g (a ++ b) = g a ++ g b)
    (tokens : List Nat) (trs : List (ℚ × Option ℚ × String))
    (h : timestampTriples env dec tokens = .ok trs) :
    tripleTexts trs = g (nonSpecialTokens dec tokens) := by
  rw [timestampTriples] at h
  cases hl : tsLoop env dec tokens [] 0 [] with
  | error e => rw [hl] at h; simp at h
  | ok abp =>
    obtain ⟨acc, buf, prev⟩ := abp
    rw [hl] at h
    dsimp only at h
    have hinv := tsLoop_texts env dec g hdec hg tokens [] 0 [] acc buf prev hl
    rw [hom_nil g hg] at hinv
    simp only [tripleTexts, List.foldr_nil, String.empty_append] at hinv
    by_cases hbe : buf.isEmpty = true
    · rw [if_pos hbe] at h
      simp only [Except.ok.injEq] at h
      subst h
      have hbuf : buf = [] := List.isEmpty_iff.mp hbe
      rw [hbuf, hom_nil g hg] at hinv
      simpa using hinv
    · rw [if_neg hbe] at h
      rw [hdec buf] at h
      dsimp only at h
      by_cases hemp : g buf = ""
      · rw [if_pos hemp] at h
        simp only [Except.ok.injEq] at h
        subst h
        rw [hemp] at hinv
        simpa using hinv
      · rw [if_neg hemp] at h
        simp only [Except.ok.injEq] at h
        subst h
        rw [tripleTexts_append_single]
        simpa using hinv

/-- C7 witness: the constant-empty tokenizer on a token list with a
leading start-of-transcript, one timestamp marker, one text token and a
trailing end-of-transcript. -/
theorem claim_C7_witness :
    tripleTexts ([] : List (ℚ × Option ℚ × String)) =
      (fun _ => "") (nonSpecialTokens wDec [0, 6, 2, 3]) :=
  claim_C7 wEnv wDec (fun _ => "") (fun _ => rfl) (fun _ _ => rfl) [0, 6, 2, 3] []
    (by rfl)

/-- C8: the full decode is bit-for-bit reproducible: its result depends on
the session's pseudo-random generator only through the stream of draws, so
two runs with the same seed (hence extensionally equal draw streams and
equal positions) over the same mel tensor and the same deterministic
collaborators return identical segment lists. -/
theorem claim_C8 (env : Env) (dec : DecoderState) (mel : Mel)
    (s₁ s₂ : Nat → ℚ) (k : Nat) (h : ∀ n, s₁ n = s₂ n) :
    Decoder.run env dec ⟨s₁, k⟩ mel = Decoder.run env dec ⟨s₂, k⟩ mel := by
  have hs : s₁ = s₂ := funext h
  rw [hs]

/-- C8 witness: two literal runs with the same draw stream. -/
theorem claim_C8_witness :
    Decoder.run wEnv wDec ⟨fun _ => 0, 0⟩ [[1], [1]] =
      Decoder.run wEnv wDec ⟨fun _ => 0, 0⟩ [[1], [1]] :=
  claim_C8 wEnv wDec [[1], [1]] (fun _ => 0) (fun _ => 0) 0 (fun _ => rfl)

/-- C1 (amended): for every non-empty logits vector, sampling with
temperature 0 returns the index of the maximal logit with ties broken by
the HIGHEST index (the last maximum encountered — `Iterator::max_by`
returns the last of equally-maximal elements), and the decode at
temperature 0 is independent of the pseudo-random generator's state,
which it leaves unchanged. -/
theorem claim_C1 :
    (∀ l : List FP, l ≠ [] →
      ∃ i, ∃ hi : i < l.length, argmaxTotalCmp l = some i ∧
        (∀ j, ∀ hj : j < l.length, fpCmp (l.get ⟨j, hj⟩) (l.get ⟨i, hi⟩) ≠ .gt) ∧
        (∀ j, ∀ hj : j < l.length, i < j → fpCmp (l.get ⟨i, hi⟩) (l.get ⟨j, hj⟩) = .gt)) ∧
    (∀ env dec mel rng rng',
      (decode env dec rng mel 0).1 = (decode env dec rng' mel 0).1 ∧
      (decode env dec rng mel 0).2 = rng) :=
  ⟨argmax_char, fun env dec mel rng rng' => decode_zero env dec mel rng rng'⟩

/-- C1 counterexample: on the tied logits vector `[1, 1]` the sampler of
lines 223-229 returns index 1, not the lowest maximal index 0 demanded by
the spec's tie-breaking rule. -/
theorem claim_C1_cex :
    argmaxTotalCmp [FP.fin 1, FP.fin 1] = some 1 ∧
    specArgmaxLowest [FP.fin 1, FP.fin 1] = some 0 ∧
    argmaxTotalCmp [FP.fin 1, FP.fin 1] ≠ specArgmaxLowest [FP.fin 1, FP.fin 1] :=
  ⟨by decide, by decide, by decide⟩

/-- C1 witness: the amended theorem applied to the tied vector and to two
distinct rng states. -/
theorem claim_C1_witness :
    (∃ i, ∃ hi : i < ([FP.fin 1, FP.fin 1] : List FP).length,
      argmaxTotalCmp [FP.fin 1, FP.fin 1] = some i ∧
      (∀ j, ∀ hj : j < ([FP.fin 1, FP.fin 1] : List FP).length,
        fpCmp (([FP.fin 1, FP.fin 1] : List FP).get ⟨j, hj⟩)
          (([FP.fin 1, FP.fin 1] : List FP).get ⟨i, hi⟩) ≠ .gt) ∧
      (∀ j, ∀ hj : j < ([FP.fin 1, FP.fin 1] : List FP).length, i < j →
        fpCmp (([FP.fin 1, FP.fin 1] : List FP).get ⟨i, hi⟩)
          (([FP.fin 1, FP.fin 1] : List FP).get ⟨j, hj⟩) = .gt)) ∧
    ((decode wEnv wDec wRng [] 0).1 = (decode wEnv wDec wRng2 [] 0).1 ∧
      (decode wEnv wDec wRng [] 0).2 = wRng) :=
  ⟨claim_C1.1 [FP.fin 1, FP.fin 1] (by decide), claim_C1.2 wEnv wDec [] wRng wRng2⟩

/-- C2 (amended): the returned `avg_logprob` is the sum of the natural-log
probabilities (under the softmax of the unscaled masked logits) of every
chosen token EXCEPT the final token when stepping terminated via
end-of-transcript or the length bound — the `break` on line 238 happens
before the accumulation on line 240, so the terminating token's
log-probability is not accumulated — divided by the total token count,
leading control tokens included. -/
theorem claim_C2 (env : Env) (dec : DecoderState) (rng : Rng) (mel : Mel) (t : ℚ)
    (dr : DecodingResult) (rng₂ : Rng)
    (h : decode env dec rng mel t = (.ok dr, rng₂)) :
    ∃ out, decodeCore env dec rng mel t = (.ok out, rng₂) ∧
      dr.tokens = primingTokens dec ++ out.steps.map (fun s => s.token) ∧
      dr.avg_logprob = stepsSum env.lnQ out.steps / (dr.tokens.length : ℚ) ∧
      (∀ k s, k + 1 < out.steps.length → out.steps.get? k = some s → s.brk = false) ∧
      (∀ s ∈ out.steps, s.brk = true →
        (s.token = dec.eot_token ∨ env.cfg.max_target_positions < dr.tokens.length)) := by
  obtain ⟨out, text, hcore, _, hdr⟩ := decode_ok env dec rng mel t dr rng₂ h
  obtain ⟨feat, _, hloop⟩ := decodeCore_ok env dec rng mel t out rng₂ hcore
  obtain ⟨ht, hsum, honly, hbrk, _⟩ :=
    decodeLoop_spec env dec t feat (env.cfg.max_target_positions / 2) 0
      (primingTokens dec) 0 .nan rng out rng₂ hloop
  subst hdr
  exact ⟨out, hcore, ht, by simp [hsum], honly, hbrk⟩

/-- C2 counterexample: a deterministic model whose first sampled token is
end-of-transcript with probability 1/5 under the unscaled masked softmax
(and `ln` oracle returning `-7` everywhere). The code returns
`avg_logprob = 0` — the terminating token's log-probability was never
accumulated — while the claim demands `ln(1/5)/4 = -7/4`. -/
theorem claim_C2_cex :
    (decode wEnv wDec wRng [] 0).1 = .ok wDr ∧
    wDr.tokens = [0, 1, 5, 3] ∧
    (softmaxFP wEnv.expQ
        (List.zipWith FP.addQ [0, 0, 0, 9, 0, 0] wDec.suppress_tokens)).get? 3 = some (1/5) ∧
    wDr.avg_logprob = 0 ∧
    specAvgLogprob wEnv.lnQ [1/5] 4 = -7/4 ∧
    wDr.avg_logprob ≠ specAvgLogprob wEnv.lnQ [1/5] 4 := by
  refine ⟨?_, rfl, ?_, rfl, ?_, ?_⟩
  · norm_num +decide [decode, decodeCore, decodeLoop, stepOnce, preSample, sampleStep,
      softmaxFP, softmaxQ, expFP, argmaxTotalCmp, maxByStep, qCmp, fpCmp, primingTokens,
      taskToken, wEnv, wDec, wRng, wDr, FP.addQ, FP.divPos, List.zipWith, List.enum,
      List.enumFrom, List.foldl, List.get?]
  · norm_num [softmaxFP, expFP, wEnv, wDec, FP.addQ, List.zipWith, List.get?]
  · norm_num [specAvgLogprob, wEnv]
  · norm_num [specAvgLogprob, wEnv, wDr]

/-- C2 witness: the amended theorem applied to the concrete decode. -/
theorem claim_C2_witness :
    ∃ out, decodeCore wEnv wDec wRng [] 0 = (.ok out, wRng) ∧
      wDr.tokens = primingTokens wDec ++ out.steps.map (fun s => s.token) ∧
      wDr.avg_logprob = stepsSum wEnv.lnQ out.steps / (wDr.tokens.length : ℚ) ∧
      (∀ k s, k + 1 < out.steps.length → out.steps.get? k = some s → s.brk = false) ∧
      (∀ s ∈ out.steps, s.brk = true →
        (s.token = wDec.eot_token ∨ wEnv.cfg.max_target_positions < wDr.tokens.length)) :=
  claim_C2 wEnv wDec wRng [] 0 wDr wRng (by
    norm_num +decide [decode, decodeCore, decodeLoop, stepOnce, preSample, sampleStep,
      softmaxFP, softmaxQ, expFP, argmaxTotalCmp, maxByStep, qCmp, fpCmp, primingTokens,
      taskToken, wEnv, wDec, wRng, wDr, FP.addQ, FP.divPos, List.zipWith, List.enum,
      List.enumFrom, List.foldl, List.get?])

/-- C3: the fallback controller returns the final temperature's result
unconditionally (success or error); at a non-final temperature an error is
only swallowed and the ladder continues (with the rng state the failed
attempt left behind); and a final-temperature error at any window aborts
the whole seek loop with that error, so no partial segment list is
returned. -/
theorem claim_C3 (env : Env) (dec : DecoderState) (mel : Mel) :
    (∀ t rng, fallbackAux env dec mel [t] rng = decode env dec rng mel t) ∧
    (∀ t ts rng e rng₁, ts ≠ [] →
      decode env dec rng mel t = (.error e, rng₁) →
      fallbackAux env dec mel (t :: ts) rng = fallbackAux env dec mel ts rng₁) ∧
    (∀ fuel seek rng e rng₁, seek < mel.length →
      decodeWithFallback env dec (windowOf mel seek (min (mel.length - seek) N_FRAMES)) rng
        = (.error e, rng₁) →
      runAux env dec mel (fuel + 1) seek rng = (.error e, rng₁)) := by
  refine ⟨fun t rng => rfl, ?_, ?_⟩
  · intro t ts rng e rng₁ hts h
    cases ts with
    | nil => exact absurd rfl hts
    | cons t' ts' => rw [fallbackAux, h]
  · intro fuel seek rng e rng₁ hseek h
    rw [runAux, if_pos hseek, h]

/-- C3 witness: with an always-failing encoder, the singleton ladder
returns the decode result, a non-final error continues the ladder, and the
final error aborts the seek loop. -/
theorem claim_C3_witness :
    fallbackAux wEnvErr wDec [] [1] wRng = decode wEnvErr wDec wRng [] 1 ∧
    fallbackAux wEnvErr wDec [] [0, 1] wRng = fallbackAux wEnvErr wDec [] [1] wRng ∧
    runAux wEnvErr wDec [[1], [1]] 2 0 wRng = (.error (.modelForward "x"), wRng) := by
  refine ⟨(claim_C3 wEnvErr wDec []).1 1 wRng,
    (claim_C3 wEnvErr wDec []).2.1 0 [1] wRng (.modelForward "x") wRng (by simp) ?_,
    (claim_C3 wEnvErr wDec [[1], [1]]).2.2 1 0 wRng (.modelForward "x") wRng (by norm_num) ?_⟩
  · simp [decode, decodeCore, wEnvErr, wEnv]
  · norm_num [decodeWithFallback, fallbackAux, TEMPERATURES, decode, decodeCore,
      wEnvErr, wEnv, windowOf]

/-- C9 (amended): the suppression mask built at session construction has
one entry per vocabulary id — `-∞` exactly for the configured suppressed
ids plus the no-timestamps id when timestamp mode is on, `0` otherwise —
and, PROVIDED at least one vocabulary id is left unmasked, no sampled
token of a decode attempt (at any temperature) equals a configured
suppressed id. The proviso is necessary: with every id masked,
temperature-0 sampling argmaxes over an all-`-∞` vector and emits the
last index, a suppressed id (see the counterexample). -/
theorem claim_C9 (env : Env) (lang : Option Nat) (task : Option Task) (ts vb : Bool)
    (dec : DecoderState) (rng : Rng) (mel : Mel) (t : ℚ) (out : CoreOut) (rng₂ : Rng)
    (hnew : Decoder.new env lang task ts vb = .ok dec)
    (hfree : ∃ j, j < env.cfg.vocab_size ∧ j ∉ env.cfg.suppress_tokens ∧
      ¬(ts = true ∧ j = dec.no_timestamps_token))
    (hcore : decodeCore env dec rng mel t = (.ok out, rng₂)) :
    (dec.suppress_tokens.length = env.cfg.vocab_size ∧
     ∀ k, k < env.cfg.vocab_size →
       dec.suppress_tokens.get? k =
         some (if k ∈ env.cfg.suppress_tokens ∨ (ts = true ∧ k = dec.no_timestamps_token)
               then FP.ninf else FP.fin 0)) ∧
    ∀ s ∈ out.steps, ∀ id ∈ env.cfg.suppress_tokens, s.token ≠ id := by
  obtain ⟨hlen, hchar⟩ := new_mask env lang task ts vb dec hnew
  refine ⟨⟨hlen, hchar⟩, ?_⟩
  obtain ⟨feat, _, hloop⟩ := decodeCore_ok env dec rng mel t out rng₂ hcore
  have hmask : ∀ id ∈ env.cfg.suppress_tokens, id < env.cfg.vocab_size →
      dec.suppress_tokens.get? id = some FP.ninf := by
    intro id hid hlt
    rw [hchar id hlt, if_pos (Or.inl hid)]
  have hfree2 : ∃ j, j < env.cfg.vocab_size ∧
      dec.suppress_tokens.get? j = some (FP.fin 0) := by
    obtain ⟨j, hlt, hns, hnts⟩ := hfree
    exact ⟨j, hlt, by rw [hchar j hlt, if_neg (by tauto)]⟩
  exact decodeLoop_not_suppressed env dec t feat hlen hmask hfree2 _ 0
    (primingTokens dec) 0 .nan rng out rng₂ hloop

/-- C9 witness: the concrete session (suppressed id 2, timestamp mode
off) and its concrete decode at temperature 0. -/
theorem claim_C9_witness :
    (wDec.suppress_tokens.length = wEnv.cfg.vocab_size ∧
     ∀ k, k < wEnv.cfg.vocab_size →
       wDec.suppress_tokens.get? k =
         some (if k ∈ wEnv.cfg.suppress_tokens ∨ (false = true ∧ k = wDec.no_timestamps_token)
               then FP.ninf else FP.fin 0)) ∧
    ∀ s ∈ wOut.steps, ∀ id ∈ wEnv.cfg.suppress_tokens, s.token ≠ id :=
  claim_C9 wEnv none (some .transcribe) false false wDec wRng [] 0 wOut wRng
    (by decide)
    ⟨0, by decide, by decide, by decide⟩
    (by norm_num +decide [decodeCore, decodeLoop, stepOnce, preSample, sampleStep, softmaxFP,
      softmaxQ, expFP, argmaxTotalCmp, maxByStep, qCmp, fpCmp, primingTokens, taskToken,
      wEnv, wDec, wRng, wOut, FP.addQ, FP.divPos, List.zipWith, List.enum, List.enumFrom,
      List.foldl, List.get?])

/-- C9 counterexample: a session whose configuration suppresses every
vocabulary id. `Decoder::new` accepts it and builds the all-`-∞` mask;
the temperature-0 decode then succeeds, and every one of its four sampled
tokens is index 5 — a configured suppressed id — refuting the
unconditional claim that no sampled token of any full decode equals a
suppressed id. -/
theorem claim_C9_cex :
    Decoder.new wEnvAll none (some .transcribe) false false = .ok wDecAll ∧
    (decodeCore wEnvAll wDecAll wRng [] 0).1 = .ok wOutAll ∧
    (5 : Nat) ∈ wEnvAll.cfg.suppress_tokens ∧
    ∃ s ∈ wOutAll.steps, s.token = 5 := by
  refine ⟨by decide, ?_, by decide, ⟨⟨5, 0, false⟩, by decide, rfl⟩⟩
  norm_num +decide [decodeCore, decodeLoop, stepOnce, preSample, sampleStep, softmaxFP,
    softmaxQ, expFP, argmaxTotalCmp, maxByStep, qCmp, fpCmp, primingTokens, taskToken,
    wEnvAll, wEnv, wDecAll, wRng, wOutAll, FP.addQ, FP.divPos, List.zipWith, List.enum,
    List.enumFrom, List.foldl, List.get?]

/-- C10: a decode attempt's token list never exceeds
`max_target_positions / 2` sampled tokens plus the priming tokens (of
which there are at most 4); hence whenever `max_target_positions ≥ 8` the
token count can never exceed `max_target_positions` and the length-based
termination branch can never fire — stepping ends only by sampling
end-of-transcript or exhausting the `max_target_positions / 2` budget. -/
theorem claim_C10 (env : Env) (dec : DecoderState) (rng : Rng) (mel : Mel) (t : ℚ)
    (dr : DecodingResult) (rng₂ : Rng)
    (h : decode env dec rng mel t = (.ok dr, rng₂)) :
    dr.tokens.length ≤ env.cfg.max_target_positions / 2 + (primingTokens dec).length ∧
    (primingTokens dec).length ≤ 4 ∧
    (8 ≤ env.cfg.max_target_positions →
      dr.tokens.length ≤ env.cfg.max_target_positions) := by
  obtain ⟨out, text, hcore, _, hdr⟩ := decode_ok env dec rng mel t dr rng₂ h
  obtain ⟨feat, _, hloop⟩ := decodeCore_ok env dec rng mel t out rng₂ hcore
  obtain ⟨ht, _, _, _, hlen⟩ :=
    decodeLoop_spec env dec t feat (env.cfg.max_target_positions / 2) 0
      (primingTokens dec) 0 .nan rng out rng₂ hloop
  have htok : dr.tokens.length = (primingTokens dec).length + out.steps.length := by
    subst hdr; simp [ht]
  have hp4 : (primingTokens dec).length ≤ 4 := primingTokens_length_le dec
  refine ⟨by omega, hp4, fun h8 => by omega⟩

/-- C10 witness: the concrete decode (`max_target_positions = 8`). -/
theorem claim_C10_witness :
    wDr.tokens.length ≤ wEnv.cfg.max_target_positions / 2 + (primingTokens wDec).length ∧
    (primingTokens wDec).length ≤ 4 ∧
    (8 ≤ wEnv.cfg.max_target_positions →
      wDr.tokens.length ≤ wEnv.cfg.max_target_positions) :=
  claim_C10 wEnv wDec wRng [] 0 wDr wRng (by
    norm_num +decide [decode, decodeCore, decodeLoop, stepOnce, preSample, sampleStep, softmaxFP,
      softmaxQ, expFP, argmaxTotalCmp, maxByStep, qCmp, fpCmp, primingTokens, taskToken,
      wEnv, wDec, wRng, wDr, FP.addQ, FP.divPos, List.zipWith, List.enum, List.enumFrom,
      List.foldl, List.get?])

end AudioProc
